import Mathlib

/-!
Shallow embedding of the pub-time version-resolution and changelog core
(`src/lib/version.ts`, `src/lib/conventional.ts`) together with proofs of the
specification's claims about it.

Strings from the TypeScript source are modelled as Lean `String`s, with the
character-level operations (regex matching, splitting, trimming) carried out
on `List Char`.  JavaScript numbers that hold version components are modelled
as `Nat` (they are produced by `parseInt` on decimal digit strings and only
ever incremented).
-/

namespace PubTime

/-- Test for the regex class `\d` / `[0-9]`. -/
def isDigitChar (c : Char) : Bool :=
  c == '0' || c == '1' || c == '2' || c == '3' || c == '4'
    || c == '5' || c == '6' || c == '7' || c == '8' || c == '9'

/-- Test for the regex class `[A-Za-z]`. -/
def isAsciiLetter (c : Char) : Bool := ('A' ≤ c && c ≤ 'Z') || ('a' ≤ c && c ≤ 'z')

/-- Test for the regex class `[\dA-Za-z-]` (alphanumeric or hyphen). -/
def isAlnumHyphen (c : Char) : Bool := isDigitChar c || isAsciiLetter c || c == '-'

/-- JavaScript whitespace as consumed by `String.prototype.trim` (ASCII part;
the version strings handled by the program contain no exotic whitespace). -/
def isJsSpace (c : Char) : Bool :=
  c == ' ' || c == '\t' || c == '\n' || c == '\r' || c == '\x0b' || c == '\x0c'

/-- Embedding of JavaScript `String.prototype.trim` on the character list. -/
def jsTrim (l : List Char) : List Char :=
  ((l.dropWhile isJsSpace).reverse.dropWhile isJsSpace).reverse

/-- Value of a decimal digit character (used to embed `Number.parseInt`). -/
def digitVal : Char → Nat
  | '1' => 1 | '2' => 2 | '3' => 3 | '4' => 4 | '5' => 5
  | '6' => 6 | '7' => 7 | '8' => 8 | '9' => 9 | _ => 0

/-- The decimal digit character of a value below ten. -/
def digitToChar : Nat → Char
  | 0 => '0' | 1 => '1' | 2 => '2' | 3 => '3' | 4 => '4'
  | 5 => '5' | 6 => '6' | 7 => '7' | 8 => '8' | _ => '9'

/-- Embedding of `Number.parseInt` on a string of decimal digits. -/
def digitsToNat (l : List Char) : Nat :=
  l.foldl (fun acc c => 10 * acc + digitVal c) 0

/-- Fuel-indexed decimal rendering of a natural number (embeds the JavaScript
number-to-string conversion for the integer values the program produces). -/
def natToDecAux : Nat → Nat → List Char
  | 0, _ => []
  | fuel + 1, n =>
    if n < 10 then [digitToChar n]
    else natToDecAux fuel (n / 10) ++ [digitToChar (n % 10)]

/-- Decimal rendering of a natural number, as JavaScript string interpolation
renders the (integer) version components. -/
def natToDec (n : Nat) : List Char := natToDecAux (n + 1) n

/-- Embedding of the `Version` type of `src/lib/version.ts`: major, minor and
patch components plus the optional pre-release suffix. -/
structure Version where
  major : Nat
  minor : Nat
  patch : Nat
  suffix : Option String := none
deriving DecidableEq, Repr

/-- JavaScript truthiness of the optional `suffix` field: `undefined` and the
empty string are falsy, every other string is truthy. -/
def jsTruthy : Option String → Bool
  | none => false
  | some s => s != ""

/-- Embedding of `isFirstBefore` (src/lib/version.ts lines 31-41). -/
def isFirstBefore (first second : Version) : Bool :=
  if first.major ≠ second.major then decide (first.major < second.major)
  else if first.minor ≠ second.minor then decide (first.minor < second.minor)
  else if first.patch ≠ second.patch then decide (first.patch < second.patch)
  else jsTruthy first.suffix && !jsTruthy second.suffix

/-- The regex alternation `0|[1-9]\d*` (a numeric identifier with no leading
zero), applied to a whole token. -/
def numericIdent : List Char → Bool
  | [] => false
  | c :: rest =>
    if c == '0' then rest.isEmpty
    else isDigitChar c && rest.all isDigitChar

/-- The regex alternation `0|[1-9]\d*|\d*[A-Za-z-][\dA-Za-z-]*` for one
pre-release identifier, applied to a whole token: either a numeric identifier
with no leading zero, or a nonempty alphanumeric-or-hyphen token containing at
least one non-digit. -/
def prereleaseIdent (l : List Char) : Bool :=
  numericIdent l ||
    (!l.isEmpty && l.all isAlnumHyphen && l.any (fun c => !isDigitChar c))

/-- The regex piece `[\dA-Za-z-]+` for one build-metadata identifier. -/
def buildIdent (l : List Char) : Bool := !l.isEmpty && l.all isAlnumHyphen

/-- Split a character list at the first occurrence of `sep`; the second
component is `none` when `sep` does not occur. -/
def splitAtFirst (sep : Char) : List Char → List Char × Option (List Char)
  | [] => ([], none)
  | c :: rest =>
    if c == sep then ([], some rest)
    else
      let p := splitAtFirst sep rest
      (c :: p.1, p.2)

/-- Split a character list on every occurrence of `sep` (like
`String.prototype.split` with a single-character separator: always returns at
least one, possibly empty, part). -/
def splitOnChar (sep : Char) : List Char → List (List Char)
  | [] => [[]]
  | c :: rest =>
    let parts := splitOnChar sep rest
    if c == sep then [] :: parts
    else
      match parts with
      | [] => [[c]]
      | p :: ps => (c :: p) :: ps

/-- Join parts with a single-character separator (left inverse of
`splitOnChar`). -/
def joinSep (sep : Char) : List (List Char) → List Char
  | [] => []
  | [p] => p
  | p :: ps => p ++ sep :: joinSep sep ps

/-- Validity of the optional pre-release group `(?:-(...))?`: absent, or a
nonempty dot-separated list of pre-release identifiers. -/
def sufOK : Option (List Char) → Bool
  | none => true
  | some sf => (splitOnChar '.' sf).all prereleaseIdent

/-- Validity of the optional build group `(?:\+(...))?`: absent, or a
nonempty dot-separated list of build identifiers. -/
def bldOK : Option (List Char) → Bool
  | none => true
  | some bd => (splitOnChar '.' bd).all buildIdent

/-- Embedding of `SEMVER_REGEX` (src/lib/version.ts lines 4-5): an anchored
match of `MAJOR.MINOR.PATCH[-PRERELEASE][+BUILD]` returning the capture groups
(three numeric components, optional pre-release text, optional build text).
On an anchored input the regex is deterministic: the first `+` of the string
separates the build metadata (no earlier part of a match may contain `+`), the
first `-` of the remaining core separates the pre-release (the numeric
components contain no `-`), and the numeric components are the `.`-separated
parts of what is left. -/
def semverRegexGroups (s : String) :
    Option (List Char × List Char × List Char × Option (List Char) × Option (List Char)) :=
  let cb := splitAtFirst '+' s.data
  let ns := splitAtFirst '-' cb.1
  match splitOnChar '.' ns.1 with
  | [a, b, c] =>
    if numericIdent a && numericIdent b && numericIdent c && sufOK ns.2 && bldOK cb.2 then
      some (a, b, c, ns.2, cb.2)
    else none
  | _ => none

/-- Embedding of `SEMVER_REGEX.test`. -/
def semverRegexTest (s : String) : Bool := (semverRegexGroups s).isSome

/-- Embedding of `parseVersion` (src/lib/version.ts lines 14-29): trim, match
against the semver grammar, and on failure return the `{0,0,0,"new"}`
sentinel.  Group 4 (the pre-release) becomes the suffix; group 5 (build
metadata) is dropped. -/
def parseVersion (s : String) : Version :=
  match semverRegexGroups (String.mk (jsTrim s.data)) with
  | some (a, b, c, suf, _) =>
    { major := digitsToNat a, minor := digitsToNat b, patch := digitsToNat c,
      suffix := suf.map (fun l => String.mk l) }
  | none => { major := 0, minor := 0, patch := 0, suffix := some "new" }

/-- Embedding of `versionToSemverString` (src/lib/version.ts lines 66-70). -/
def versionToSemverString (v : Version) : String :=
  String.mk (natToDec v.major ++ '.' :: natToDec v.minor ++ '.' :: natToDec v.patch ++
    (match v.suffix with
     | some sf => if sf != "" then '-' :: sf.data else []
     | none => []))

/-- Embedding of `versionToHumanString` (src/lib/version.ts lines 72-77).  The
condition tests `major` twice and never tests `minor`, exactly as the source
line 73 is written. -/
def versionToHumanString (v : Version) : String :=
  if v.major == 0 && v.major == 0 && v.patch == 0 && jsTruthy v.suffix then
    "[" ++ v.suffix.getD "" ++ "]"
  else versionToSemverString v

/-! ## Commit model and conventional-commit classification (src/lib/conventional.ts) -/

/-- Semantic-versioning impact of a single commit (the string union on the
`semver` field of the `Commit` type, conventional.ts line 9). -/
inductive SemverImpact where
  | major
  | minor
  | patch
  | unknown
deriving DecidableEq, Repr

/-- Embedding of the `Commit` record type (conventional.ts lines 4-10). -/
structure Commit where
  hash : String
  message : String
  footer : String
  versions : List Version
  semver : SemverImpact
deriving DecidableEq, Repr

/-- Test for the regex class `[a-z]`. -/
def isLowerAZ (c : Char) : Bool := 'a' ≤ c && c ≤ 'z'

/-- Match of the common tail `(\([^)]+\))?!?:` / `(\([^)]+\))?!:` of the three
classification regexes, starting right after the type token.  The scope group
is deterministic: `[^)]+` never crosses a `)`, so the group matches up to the
first `)`; if the text starts with `(` and the group cannot complete, no match
exists at all, because `(` is neither `!` nor `:`.  Likewise `!?` is
deterministic because `!` is not `:`. -/
def matchBangColon (bangRequired : Bool) (s : List Char) : Bool :=
  match s with
  | '!' :: ':' :: _ => true
  | ':' :: _ => !bangRequired
  | _ => false

/-- Match of the optional scope group followed by the bang part and the
colon. -/
def matchScopeBangColon (bangRequired : Bool) (s : List Char) : Bool :=
  match s with
  | '(' :: rest =>
    let inner := rest.takeWhile (fun c => c != ')')
    if inner.isEmpty then false
    else
      match rest.drop inner.length with
      | ')' :: rest2 => matchBangColon bangRequired rest2
      | _ => false
  | _ => matchBangColon bangRequired s

/-- Embedding of `BREAKING_CHANGE_REGEX = /^[a-z]+(\([^)]+\))?!:/`
(conventional.ts line 13).  The greedy `[a-z]+` is deterministic here: after
giving back a letter the regex would need that letter to match `(`, `!` or
`:`, which is impossible, so the type token is exactly the maximal leading
run of lowercase letters. -/
def testBreakingChangeRegex (s : List Char) : Bool :=
  let ty := s.takeWhile isLowerAZ
  !ty.isEmpty && matchScopeBangColon true (s.drop ty.length)

/-- Embedding of `FEAT_REGEX = /^feat(\([^)]+\))?!?:/` (conventional.ts
line 12). -/
def testFeatRegex (s : List Char) : Bool :=
  match s with
  | 'f' :: 'e' :: 'a' :: 't' :: rest => matchScopeBangColon false rest
  | _ => false

/-- Embedding of `CONVENTIONAL_COMMIT_REGEX = /^[a-z]+(\([^)]+\))?!?:/`
(conventional.ts line 14). -/
def testConventionalCommitRegex (s : List Char) : Bool :=
  let ty := s.takeWhile isLowerAZ
  !ty.isEmpty && matchScopeBangColon false (s.drop ty.length)

/-- Embedding of JavaScript `String.prototype.includes`. -/
def hasSubstring (needle : List Char) : List Char → Bool
  | [] => needle.isEmpty
  | c :: t => needle.isPrefixOf (c :: t) || hasSubstring needle t

/-- The classification of one commit's semver impact from its subject line and
footer (conventional.ts lines 37-44). -/
def semverImpact (message footer : String) : SemverImpact :=
  if testBreakingChangeRegex message.data
      || hasSubstring "BREAKING CHANGE: ".data footer.data then .major
  else if testFeatRegex message.data then .minor
  else if testConventionalCommitRegex message.data then .patch
  else .unknown

/-! ## Commit history parsing (getAllCommits, conventional.ts lines 16-55) -/

/-- Test for the regex class `[\da-f]` (lowercase hex digit). -/
def isHexLower (c : Char) : Bool := isDigitChar c || ('a' ≤ c && c ≤ 'f')

/-- A JavaScript regex line terminator, which `.` does not match. -/
def isLineTerm (c : Char) : Bool :=
  c == '\n' || c == '\r' || c == '\u2028' || c == '\u2029'

/-- Match of the header regex `([\da-f]{40})\$(.*)` at the head of `l`,
returning the two capture groups (hash, ref-name text). -/
def headerAt (l : List Char) : Option (List Char × List Char) :=
  let hash := l.take 40
  if hash.length == 40 && hash.all isHexLower then
    match l.drop 40 with
    | '$' :: rest => some (hash, rest.takeWhile (fun c => !isLineTerm c))
    | _ => none
  else none

/-- All matches of `/(?<=^|\n)([\da-f]{40})\$(.*)/g` over the raw log text,
as (match index, hash group, ref-name group) triples in string order.  The
lookbehind restricts match starts to position 0 and positions right after a
newline; since a match spans no newline, no two matches overlap and the
per-position scan finds exactly the `matchAll` matches. -/
def findHeaders : List Char → Nat → Bool → List (Nat × List Char × List Char)
  | [], _, _ => []
  | c :: rest, pos, atStart =>
    let tail := findHeaders rest (pos + 1) (c == '\n')
    if atStart then
      match headerAt (c :: rest) with
      | some (h, r) => (pos, h, r) :: tail
      | none => tail
    else tail

/-- Embedding of `String.prototype.slice` with nonnegative clamped indices. -/
def jsSlice (l : List Char) (a b : Nat) : List Char := (l.drop a).take (b - a)

/-- The body of the per-commit loop of `getAllCommits` (conventional.ts lines
21-53): for each header match, slice out the commit body (from just past the
header line to just before the next match), split it at the first newline
into subject and footer, extract the version tags from the ref-name list, and
classify.  The source loop runs backwards carrying `prevIndex`; the boundary
used for match `i` is the index of match `i+1` (or the text length for the
last match), which is what `nextIdx` computes here. -/
def buildCommits (raw : List Char) : List (Nat × List Char × List Char) → List Commit
  | [] => []
  | (idx, hash, refs) :: rest =>
    let nextIdx :=
      match rest with
      | [] => raw.length
      | (idx2, _, _) :: _ => idx2
    let body := jsSlice raw (idx + 42 + refs.length) (nextIdx - 1)
    let nlIdx := body.findIdx (fun c => c == '\n')
    let message := String.mk (jsTrim (body.take nlIdx))
    let footer := String.mk (jsTrim (body.drop (nlIdx + 1)))
    let versions :=
      (((((splitOnChar ',' refs).map (fun part => jsTrim part)).filter
          (fun part => "tag: v".data.isPrefixOf part)).map
          (fun part => part.drop 6)).filter
          (fun part => semverRegexTest (String.mk part))).map
          (fun part => parseVersion (String.mk part))
    { hash := String.mk hash, message, footer, versions,
      semver := semverImpact message footer } :: buildCommits raw rest

/-- Embedding of `getAllCommits` (conventional.ts lines 16-55) as a function
of the raw `git log --format=format:'%H$%D%n%B'` text. -/
def getAllCommits (raw : String) : List Commit :=
  buildCommits raw.data (findHeaders raw.data 0 true)

/-! ## Release window selection (conventional.ts lines 57-75) -/

/-- Embedding of `String.prototype.toLowerCase` (ASCII range; the hashes and
boundary prefixes the program handles are ASCII). -/
def jsToLowerStr (s : String) : String := String.mk (s.data.map Char.toLower)

/-- Embedding of `String.prototype.startsWith`. -/
def jsStartsWith (s pre : String) : Bool := pre.data.isPrefixOf s.data

/-- Embedding of `getCommitsSinceLastRelease` (conventional.ts lines 57-75) as
a function of the parsed commit list: scan for the first commit whose hash
starts with the lowercased boundary (or, without a boundary, the first commit
carrying a version tag) and return everything before it; `List.findIdx`
returns the length when no commit matches, so the whole list is returned in
that case, exactly like the source loop. -/
def getCommitsSinceLastRelease (allCommits : List Commit) (lastHash : Option String) :
    List Commit :=
  match lastHash with
  | some h =>
    let hl := jsToLowerStr h
    allCommits.take (allCommits.findIdx (fun c => jsStartsWith c.hash hl))
  | none =>
    allCommits.take (allCommits.findIdx (fun c => decide (c.versions.length > 0)))

/-! ## Release generation (conventional.ts lines 77-137) -/

/-- The `increment` variable's string union (conventional.ts line 94). -/
inductive Bump where
  | major
  | minor
  | patch
deriving DecidableEq, Repr

/-- Embedding of `ReleaseData` (conventional.ts lines 77-84). -/
structure ReleaseData where
  prev : Version
  next : Version
  commits : List Commit
  majors : List Commit
  minors : List Commit
  patches : List Commit
deriving DecidableEq, Repr

/-- One iteration of the classification loop of `generateRelease`
(conventional.ts lines 95-112), carrying the state (increment, majors,
minors, patches). -/
def classifyStep (st : Bump × List Commit × List Commit × List Commit) (commit : Commit) :
    Bump × List Commit × List Commit × List Commit :=
  match st with
  | (increment, majors, minors, patches) =>
    match commit.semver with
    | .major => (Bump.major, majors ++ [commit], minors, patches)
    | .minor =>
      ((if increment = Bump.patch then Bump.minor else increment),
        majors, minors ++ [commit], patches)
    | .patch => (increment, majors, minors, patches ++ [commit])
    | .unknown =>
      (increment, majors, minors,
        patches ++ [{ commit with message := "unknown: " ++ commit.message }])

/-- Embedding of `generateRelease` (conventional.ts lines 86-137) as a pure
function of the previously published version and the pending-commit window
(the source obtains those from `getPublishedVersion` and
`getCommitsSinceLastRelease`). -/
def generateRelease (prev : Version) (commits : List Commit) : ReleaseData :=
  let st := commits.foldl classifyStep (Bump.patch, [], [], [])
  let increment := st.1
  let majors := st.2.1
  let minors := st.2.2.1
  let patches := st.2.2.2
  let next : Version :=
    if prev.major ≥ 1 && isFirstBefore prev { major := prev.major, minor := 0, patch := 0 } then
      { major := prev.major, minor := 0, patch := 0 }
    else if isFirstBefore prev { major := 0, minor := 1, patch := 0 } then
      { major := prev.major, minor := 1, patch := 0 }
    else
      match increment with
      | .major => { major := prev.major + 1, minor := 0, patch := 0 }
      | .minor => { major := prev.major, minor := prev.minor + 1, patch := 0 }
      | .patch => { major := prev.major, minor := prev.minor, patch := prev.patch + 1 }
  { prev, next, commits, majors, minors, patches }

/-! ## Changelog rendering (conventional.ts lines 139-155) -/

/-- The consecutive-duplicate filter of `toMarkdownList` (conventional.ts
line 154): an element is kept iff it is at index 0 or differs from the
element before it in the original array. -/
def collapseAdjacentAux (prev : String) : List String → List String
  | [] => []
  | x :: xs =>
    if x == prev then collapseAdjacentAux x xs
    else x :: collapseAdjacentAux x xs

/-- The filter, starting at index 0 (always kept). -/
def collapseAdjacent : List String → List String
  | [] => []
  | x :: xs => x :: collapseAdjacentAux x xs

/-- Embedding of JavaScript `Array.prototype.join`. -/
def jsJoin (sep : String) : List String → String
  | [] => ""
  | [p] => p
  | p :: ps => p ++ sep ++ jsJoin sep ps

/-- Embedding of `toMarkdownList` (conventional.ts lines 151-155). -/
def toMarkdownList (commits : List Commit) : String :=
  jsJoin "\n" (collapseAdjacent (commits.map (fun c => "- " ++ c.message)))

/-- Embedding of `generateChangelogMarkdown` (conventional.ts lines 139-149).
`filter(Boolean)` keeps the nonempty section strings. -/
def generateChangelogMarkdown (rd : ReleaseData) : String :=
  let sections :=
    [(if rd.majors.length > 0 then "# Major changes (breaking)\n\n" ++ toMarkdownList rd.majors else ""),
      (if rd.minors.length > 0 then "# Feature updates\n\n" ++ toMarkdownList rd.minors else ""),
      (if rd.patches.length > 0 then "# Other commits\n\n" ++ toMarkdownList rd.patches else "")]
  let output := jsJoin "\n\n" (sections.filter (fun s => s != ""))
  if output != "" then output ++ "\n" else ""

/-! ## Specification-side predicates and reference definitions

The definitions below are written from the specification's wording (they name
the patterns and output format the spec describes) and exist to be compared
with the embeddings above. -/

/-- A conventional-commit scope group `(\([^)]+\))`: an opening parenthesis, a
nonempty run of characters other than `)`, and a closing parenthesis. -/
def ScopePart (sc : List Char) : Prop :=
  ∃ inner, inner ≠ [] ∧ (∀ c ∈ inner, c ≠ ')') ∧ sc = '(' :: (inner ++ [')'])

/-- The bang part of a subject pattern: `!` when the bang is required, `!` or
nothing when it is optional. -/
def BangPart (required : Bool) (bg : List Char) : Prop :=
  bg = ['!'] ∨ (required = false ∧ bg = [])

/-- A type token: one or more lowercase ASCII letters. -/
def TypeTokenLower (t : List Char) : Prop :=
  t ≠ [] ∧ ∀ c ∈ t, isLowerAZ c = true

/-- The spec's subject-line pattern `type[(scope)]bang:`: the subject starts
with a type token satisfying `ty`, an optional scope, the bang part, and a
colon (anything may follow the colon). -/
def SubjectMatch (ty : List Char → Prop) (bangRequired : Bool) (s : List Char) : Prop :=
  ∃ t sc bg rest,
    ty t ∧ (sc = [] ∨ ScopePart sc) ∧ BangPart bangRequired bg ∧
      s = t ++ sc ++ bg ++ ':' :: rest

/-- Containment of `needle` as a contiguous substring. -/
def ContainsSub (needle hay : List Char) : Prop :=
  ∃ pre post, hay = pre ++ needle ++ post

/-- The commit-impact level a commit contributes to the aggregated bump
(spec 4.4: `unknown` never influences the bump beyond patch level). -/
def commitBump (c : Commit) : Bump :=
  match c.semver with
  | .major => .major
  | .minor => .minor
  | _ => .patch

/-- Join of two bump levels, keeping the stronger one. -/
def bumpMax : Bump → Bump → Bump
  | .major, _ => .major
  | _, .major => .major
  | .minor, _ => .minor
  | _, .minor => .minor
  | .patch, .patch => .patch

/-- The aggregated bump of the spec (4.4): any major impact forces `major`,
otherwise any minor impact forces `minor`, otherwise `patch`. -/
def aggBump (cs : List Commit) : Bump :=
  if cs.any (fun c => decide (c.semver = SemverImpact.major)) then .major
  else if cs.any (fun c => decide (c.semver = SemverImpact.minor)) then .minor
  else .patch

/-- The patches bucket as the spec describes it: the patch-impact commits
unchanged plus the unknown-impact commits with their message rewritten with
an "unknown: " prefix, in the window's order. -/
def patchBucketOf (cs : List Commit) : List Commit :=
  cs.filterMap (fun c =>
    match c.semver with
    | .patch => some c
    | .unknown => some { c with message := "unknown: " ++ c.message }
    | _ => none)

/-- One changelog section as the spec describes it (4.5): the heading, a
blank line, then one bullet per commit message with adjacent duplicates
collapsed. -/
def specSection (heading : String) (cs : List Commit) : String :=
  heading ++ "\n\n" ++ jsJoin "\n" (collapseAdjacent (cs.map (fun c => "- " ++ c.message)))

/-- The changelog rendering as the spec describes it (4.5): one section per
non-empty bucket in order Major, Minor, Patch, separated by a blank line;
empty string when all buckets are empty, otherwise one trailing newline. -/
def specRenderChangelog (majors minors patches : List Commit) : String :=
  let secs :=
    (if majors.isEmpty then [] else [specSection "# Major changes (breaking)" majors]) ++
      (if minors.isEmpty then [] else [specSection "# Feature updates" minors]) ++
      (if patches.isEmpty then [] else [specSection "# Other commits" patches])
  if secs.isEmpty then "" else jsJoin "\n\n" secs ++ "\n"

/-! ## Claim C1: the X.0.0 normalization rule -/

/-- Claim C1, counterexample: for previous version 3.3.9 (major at least 1,
minor and patch nonzero) and a pending window holding one major-impact
commit, the computed next version is 4.0.0, not the 3.0.0 the claim
requires. -/
theorem claim1_counterexample :
    (generateRelease { major := 3, minor := 3, patch := 9 }
        [{ hash := "h", message := "feat!: z", footer := "", versions := [],
           semver := SemverImpact.major }]).next = { major := 4, minor := 0, patch := 0 }
    ∧ (generateRelease { major := 3, minor := 3, patch := 9 }
        [{ hash := "h", message := "feat!: z", footer := "", versions := [],
           semver := SemverImpact.major }]).next ≠ { major := 3, minor := 0, patch := 0 } := by
  exact ⟨rfl, by decide⟩

/-- Claim C1 as amended: the `major.0.0` normalization applies exactly to a
previous version with major at least 1 that is strictly before
`{major, 0, 0}`, i.e. one with minor = 0, patch = 0 and a (truthy) suffix — a
pre-release of `major.0.0`.  For every such previous version and every list
of pending commits the next version is `{major, 0, 0}`, overriding even a
detected major bump. -/
theorem claim1_amended (prev : Version) (cs : List Commit)
    (h1 : 1 ≤ prev.major) (h2 : prev.minor = 0) (h3 : prev.patch = 0)
    (h4 : jsTruthy prev.suffix = true) :
    (generateRelease prev cs).next = { major := prev.major, minor := 0, patch := 0 } := by
  have hnone : jsTruthy none = false := rfl
  have hb : isFirstBefore prev { major := prev.major, minor := 0, patch := 0 } = true := by
    simp [isFirstBefore, h2, h3, hnone, h4]
  simp [generateRelease, hb, h1]

/-- Witness for `claim1_amended` at previous version 3.0.0-beta with a
major-impact pending commit. -/
theorem claim1_amended_witness :
    1 ≤ (3 : Nat)
    ∧ jsTruthy (some "beta") = true
    ∧ (generateRelease { major := 3, minor := 0, patch := 0, suffix := some "beta" }
        [{ hash := "h", message := "feat!: z", footer := "", versions := [],
           semver := SemverImpact.major }]).next = { major := 3, minor := 0, patch := 0 } :=
  ⟨by decide, by decide,
    claim1_amended _ _ (by decide) rfl rfl (by decide)⟩

/-! ## Claim C5: the 0.x bootstrap rule -/

/-- Claim C5: every previous version strictly before `{0,1,0}` (which forces
major = 0 and includes every `0.0.x` and the `{0,0,0,"new"}` sentinel) gets
next version `{prev.major, 1, 0}` regardless of the pending commits. -/
theorem claim5_bootstrap (prev : Version) (cs : List Commit) (p : Nat) (sfx : Option String)
    (h : isFirstBefore prev { major := 0, minor := 1, patch := 0 } = true) :
    prev.major = 0
    ∧ (generateRelease prev cs).next = { major := prev.major, minor := 1, patch := 0 }
    ∧ isFirstBefore { major := 0, minor := 0, patch := p, suffix := sfx }
        { major := 0, minor := 1, patch := 0 } = true := by
  have hm : prev.major = 0 := by
    by_contra hm
    simp [isFirstBefore, hm] at h
  refine ⟨hm, ?_, ?_⟩
  · simp [generateRelease, hm, h]
  · simp [isFirstBefore]

/-- Witness for `claim5_bootstrap` at previous version 0.0.5 with a
major-impact pending commit. -/
theorem claim5_bootstrap_witness :
    isFirstBefore { major := 0, minor := 0, patch := 5 } { major := 0, minor := 1, patch := 0 } = true
    ∧ (generateRelease { major := 0, minor := 0, patch := 5 }
        [{ hash := "h", message := "feat!: z", footer := "", versions := [],
           semver := SemverImpact.major }]).next = { major := 0, minor := 1, patch := 0 } := by
  refine ⟨by decide, ?_⟩
  have h := claim5_bootstrap { major := 0, minor := 0, patch := 5 }
    [{ hash := "h", message := "feat!: z", footer := "", versions := [],
       semver := SemverImpact.major }] 0 none (by decide)
  exact h.2.1

/-! ## Claim C8: versionToHumanString versus versionToSemverString -/

/-- Claim C8, failing input for the code: the version `0.5.0-beta` is not the
all-zero sentinel (its minor is 5), so per the claim `toHumanString` should
agree with `toSemverString` and produce "0.5.0-beta"; the code's condition
tests `major` twice instead of testing `minor` (version.ts line 73) and
renders "[beta]". -/
theorem claim8_code_divergence :
    versionToHumanString { major := 0, minor := 5, patch := 0, suffix := some "beta" } = "[beta]"
    ∧ versionToSemverString { major := 0, minor := 5, patch := 0, suffix := some "beta" }
        = "0.5.0-beta"
    ∧ ("[beta]" : String) ≠ "0.5.0-beta" :=
  ⟨rfl, rfl, by decide⟩

/-! ## Claim C2: bump aggregation and bucketing -/

/-- The increment transition of one classification step is the join of the
current increment with the commit's own bump level. -/
theorem classifyStep_fst (st : Bump × List Commit × List Commit × List Commit) (c : Commit) :
    (classifyStep st c).1 = bumpMax st.1 (commitBump c) := by
  obtain ⟨i, ma, mi, pa⟩ := st
  cases hc : c.semver <;> cases i <;> simp [classifyStep, hc, commitBump, bumpMax]

theorem bumpMax_assoc (a b c : Bump) : bumpMax (bumpMax a b) c = bumpMax a (bumpMax b c) := by
  cases a <;> cases b <;> cases c <;> rfl

theorem bumpMax_patch_right (b : Bump) : bumpMax b Bump.patch = b := by
  cases b <;> rfl

theorem aggBump_cons (c : Commit) (cs : List Commit) :
    aggBump (c :: cs) = bumpMax (commitBump c) (aggBump cs) := by
  cases hmaj : cs.any (fun x => decide (x.semver = SemverImpact.major)) <;>
    cases hmin : cs.any (fun x => decide (x.semver = SemverImpact.minor)) <;>
    cases hc : c.semver <;>
    simp [aggBump, commitBump, bumpMax, List.any_cons, hmaj, hmin, hc]

theorem foldl_classify_fst (cs : List Commit)
    (st : Bump × List Commit × List Commit × List Commit) :
    (cs.foldl classifyStep st).1 = bumpMax st.1 (aggBump cs) := by
  induction cs generalizing st with
  | nil => simp [aggBump, bumpMax_patch_right]
  | cons c cs ih =>
    simp only [List.foldl_cons]
    rw [ih, classifyStep_fst, aggBump_cons, bumpMax_assoc]

theorem foldl_classify_majors (cs : List Commit)
    (st : Bump × List Commit × List Commit × List Commit) :
    (cs.foldl classifyStep st).2.1
      = st.2.1 ++ cs.filter (fun c => decide (c.semver = SemverImpact.major)) := by
  induction cs generalizing st with
  | nil => simp
  | cons c cs ih =>
    obtain ⟨i, ma, mi, pa⟩ := st
    simp only [List.foldl_cons]
    rw [ih]
    cases hc : c.semver <;> simp [classifyStep, hc, List.filter_cons]

theorem foldl_classify_minors (cs : List Commit)
    (st : Bump × List Commit × List Commit × List Commit) :
    (cs.foldl classifyStep st).2.2.1
      = st.2.2.1 ++ cs.filter (fun c => decide (c.semver = SemverImpact.minor)) := by
  induction cs generalizing st with
  | nil => simp
  | cons c cs ih =>
    obtain ⟨i, ma, mi, pa⟩ := st
    simp only [List.foldl_cons]
    rw [ih]
    cases hc : c.semver <;> simp [classifyStep, hc, List.filter_cons]

theorem foldl_classify_patches (cs : List Commit)
    (st : Bump × List Commit × List Commit × List Commit) :
    (cs.foldl classifyStep st).2.2.2 = st.2.2.2 ++ patchBucketOf cs := by
  induction cs generalizing st with
  | nil => simp [patchBucketOf]
  | cons c cs ih =>
    obtain ⟨i, ma, mi, pa⟩ := st
    simp only [List.foldl_cons]
    rw [ih]
    cases hc : c.semver <;> simp [classifyStep, hc, patchBucketOf, List.filterMap_cons]

theorem bucket_lengths (cs : List Commit) :
    (cs.filter (fun c => decide (c.semver = SemverImpact.major))).length
      + (cs.filter (fun c => decide (c.semver = SemverImpact.minor))).length
      + (patchBucketOf cs).length = cs.length := by
  induction cs with
  | nil => simp [patchBucketOf]
  | cons c cs ih =>
    cases hc : c.semver <;>
      simp [List.filter_cons, patchBucketOf, List.filterMap_cons, hc] at ih ⊢ <;>
      omega

/-- Claim C2: when neither version-override rule applies, the aggregated bump
is major if any pending commit has major impact, else minor if any has minor
impact, else patch, and the next version bumps the previous version
accordingly; the majors and minors buckets hold exactly the commits of the
matching impact, the patches bucket holds the patch-impact commits plus the
unknown-impact commits with an "unknown: " message prefix, the three buckets
partition the window, and previous version 1.2.3 with pending commits
["fix: x", "feat: y", "feat!: z"] yields next version 2.0.0 with buckets of
sizes one, one and one. -/
theorem claim2_aggregation (prev : Version) (cs : List Commit)
    (h1 : (decide (1 ≤ prev.major)
        && isFirstBefore prev { major := prev.major, minor := 0, patch := 0 }) = false)
    (h2 : isFirstBefore prev { major := 0, minor := 1, patch := 0 } = false) :
    ((cs.any fun c => decide (c.semver = SemverImpact.major)) = true →
        (generateRelease prev cs).next = { major := prev.major + 1, minor := 0, patch := 0 })
    ∧ ((cs.any fun c => decide (c.semver = SemverImpact.major)) = false →
        (cs.any fun c => decide (c.semver = SemverImpact.minor)) = true →
        (generateRelease prev cs).next = { major := prev.major, minor := prev.minor + 1, patch := 0 })
    ∧ ((cs.any fun c => decide (c.semver = SemverImpact.major)) = false →
        (cs.any fun c => decide (c.semver = SemverImpact.minor)) = false →
        (generateRelease prev cs).next
          = { major := prev.major, minor := prev.minor, patch := prev.patch + 1 })
    ∧ (generateRelease prev cs).majors = cs.filter (fun c => decide (c.semver = SemverImpact.major))
    ∧ (generateRelease prev cs).minors = cs.filter (fun c => decide (c.semver = SemverImpact.minor))
    ∧ (generateRelease prev cs).patches = patchBucketOf cs
    ∧ (generateRelease prev cs).majors.length + (generateRelease prev cs).minors.length
        + (generateRelease prev cs).patches.length = cs.length
    ∧ (generateRelease { major := 1, minor := 2, patch := 3 }
        [{ hash := "h1", message := "fix: x", footer := "", versions := [],
           semver := semverImpact "fix: x" "" },
         { hash := "h2", message := "feat: y", footer := "", versions := [],
           semver := semverImpact "feat: y" "" },
         { hash := "h3", message := "feat!: z", footer := "", versions := [],
           semver := semverImpact "feat!: z" "" }]).next = { major := 2, minor := 0, patch := 0 }
    ∧ (generateRelease { major := 1, minor := 2, patch := 3 }
        [{ hash := "h1", message := "fix: x", footer := "", versions := [],
           semver := semverImpact "fix: x" "" },
         { hash := "h2", message := "feat: y", footer := "", versions := [],
           semver := semverImpact "feat: y" "" },
         { hash := "h3", message := "feat!: z", footer := "", versions := [],
           semver := semverImpact "feat!: z" "" }]).majors.length = 1
    ∧ (generateRelease { major := 1, minor := 2, patch := 3 }
        [{ hash := "h1", message := "fix: x", footer := "", versions := [],
           semver := semverImpact "fix: x" "" },
         { hash := "h2", message := "feat: y", footer := "", versions := [],
           semver := semverImpact "feat: y" "" },
         { hash := "h3", message := "feat!: z", footer := "", versions := [],
           semver := semverImpact "feat!: z" "" }]).minors.length = 1
    ∧ (generateRelease { major := 1, minor := 2, patch := 3 }
        [{ hash := "h1", message := "fix: x", footer := "", versions := [],
           semver := semverImpact "fix: x" "" },
         { hash := "h2", message := "feat: y", footer := "", versions := [],
           semver := semverImpact "feat: y" "" },
         { hash := "h3", message := "feat!: z", footer := "", versions := [],
           semver := semverImpact "feat!: z" "" }]).patches.length = 1 := by
  have hmaj : (generateRelease prev cs).majors
      = cs.filter (fun c => decide (c.semver = SemverImpact.major)) := by
    simp only [generateRelease]
    rw [foldl_classify_majors]
    rfl
  have hmin : (generateRelease prev cs).minors
      = cs.filter (fun c => decide (c.semver = SemverImpact.minor)) := by
    simp only [generateRelease]
    rw [foldl_classify_minors]
    rfl
  have hpat : (generateRelease prev cs).patches = patchBucketOf cs := by
    simp only [generateRelease]
    rw [foldl_classify_patches]
    rfl
  have hinc : (cs.foldl classifyStep (Bump.patch, [], [], [])).1 = aggBump cs := by
    rw [foldl_classify_fst]
    cases h : aggBump cs <;> rfl
  have hnext : ∀ hm : Bump,
      aggBump cs = hm →
      (generateRelease prev cs).next
        = (match hm with
           | Bump.major => { major := prev.major + 1, minor := 0, patch := 0 }
           | Bump.minor => { major := prev.major, minor := prev.minor + 1, patch := 0 }
           | Bump.patch =>
             { major := prev.major, minor := prev.minor, patch := prev.patch + 1 }) := by
    intro hm hagg
    simp only [generateRelease, h1, h2, hinc, hagg, Bool.false_eq_true, if_false]
  refine ⟨?_, ?_, ?_, hmaj, hmin, hpat, ?_, rfl, rfl, rfl, rfl⟩
  · intro ha
    exact hnext Bump.major (by simp [aggBump, ha])
  · intro ha hb
    exact hnext Bump.minor (by simp [aggBump, ha, hb])
  · intro ha hb
    exact hnext Bump.patch (by simp [aggBump, ha, hb])
  · rw [hmaj, hmin, hpat]
    exact bucket_lengths cs

/-- Witness for `claim2_aggregation` at previous version 5.6.7 with an empty
pending window (neither override rule applies; the patch case of the bump
fires). -/
theorem claim2_aggregation_witness :
    (decide (1 ≤ (5 : Nat))
        && isFirstBefore { major := 5, minor := 6, patch := 7 }
          { major := 5, minor := 0, patch := 0 }) = false
    ∧ isFirstBefore { major := 5, minor := 6, patch := 7 }
        { major := 0, minor := 1, patch := 0 } = false
    ∧ (generateRelease { major := 5, minor := 6, patch := 7 } []).next
        = { major := 5, minor := 6, patch := 8 } := by
  refine ⟨by decide, by decide, ?_⟩
  exact (claim2_aggregation { major := 5, minor := 6, patch := 7 } []
    (by decide) (by decide)).2.2.1 rfl rfl

/-! ## Claim C4: release-window selection -/

theorem take_findIdx_eq_takeWhile {α : Type} (p : α → Bool) (l : List α) :
    l.take (l.findIdx p) = l.takeWhile (fun a => !p a) := by
  induction l with
  | nil => rfl
  | cons a l ih =>
    cases h : p a <;> simp [List.findIdx_cons, h, List.takeWhile, ih]

theorem takeWhile_congr_mem {α : Type} (p q : α → Bool) (l : List α)
    (h : ∀ a ∈ l, p a = q a) : l.takeWhile p = l.takeWhile q := by
  induction l with
  | nil => rfl
  | cons a l ih =>
    have ha := h a (by simp)
    cases hq : q a <;>
      simp [List.takeWhile, ha, hq, ih fun a hmem => h a (by simp [hmem])]

theorem takeWhile_eq_self_of_mem {α : Type} (p : α → Bool) (l : List α)
    (h : ∀ a ∈ l, p a = true) : l.takeWhile p = l := by
  induction l with
  | nil => rfl
  | cons a l ih =>
    simp [List.takeWhile, h a (by simp), ih fun a hmem => h a (by simp [hmem])]

/-- Claim C4: with a boundary hash, the window is exactly the commits before
the first one (newest first) whose hash has the boundary as a
case-insensitive prefix, the whole history when no hash matches; without a
boundary, the window is exactly the commits before the first one carrying a
version tag, the whole history when none does.  The hypothesis `hlow`
records that parsed hashes are already lowercase (the header regex
`[\da-f]{40}` admits nothing else), which is what makes the source's
one-sided lowercasing a case-insensitive comparison. -/
theorem claim4_release_window (cs : List Commit) (h : String)
    (hlow : ∀ c ∈ cs, jsToLowerStr c.hash = c.hash) :
    getCommitsSinceLastRelease cs (some h)
      = cs.takeWhile (fun c => !jsStartsWith (jsToLowerStr c.hash) (jsToLowerStr h))
    ∧ ((∀ c ∈ cs, jsStartsWith (jsToLowerStr c.hash) (jsToLowerStr h) = false) →
        getCommitsSinceLastRelease cs (some h) = cs)
    ∧ getCommitsSinceLastRelease cs none = cs.takeWhile (fun c => c.versions.isEmpty)
    ∧ ((∀ c ∈ cs, c.versions = []) → getCommitsSinceLastRelease cs none = cs) := by
  have hsome : getCommitsSinceLastRelease cs (some h)
      = cs.takeWhile (fun c => !jsStartsWith (jsToLowerStr c.hash) (jsToLowerStr h)) := by
    show cs.take (cs.findIdx fun c => jsStartsWith c.hash (jsToLowerStr h)) = _
    rw [take_findIdx_eq_takeWhile]
    refine takeWhile_congr_mem _ _ cs fun c hc => ?_
    rw [hlow c hc]
  have hnone : getCommitsSinceLastRelease cs none
      = cs.takeWhile (fun c => c.versions.isEmpty) := by
    show cs.take (cs.findIdx fun c => decide (c.versions.length > 0)) = _
    rw [take_findIdx_eq_takeWhile]
    refine takeWhile_congr_mem _ _ cs fun c _ => ?_
    cases c.versions <;> simp
  refine ⟨hsome, ?_, hnone, ?_⟩
  · intro hall
    rw [hsome]
    refine takeWhile_eq_self_of_mem _ cs fun c hc => ?_
    rw [hall c hc]
    rfl
  · intro hall
    rw [hnone]
    refine takeWhile_eq_self_of_mem _ cs fun c hc => ?_
    rw [hall c hc]
    rfl

/-- Witness for `claim4_release_window` on a two-commit history with an
uppercase boundary prefix matching the second commit's hash. -/
theorem claim4_release_window_witness :
    (∀ c ∈ ([{ hash := "aa", message := "m1", footer := "", versions := [],
               semver := SemverImpact.patch },
             { hash := "bb", message := "m2", footer := "",
               versions := [{ major := 1, minor := 0, patch := 0 : Version }],
               semver := SemverImpact.patch }] : List Commit),
        jsToLowerStr c.hash = c.hash)
    ∧ getCommitsSinceLastRelease
        ([{ hash := "aa", message := "m1", footer := "", versions := [],
            semver := SemverImpact.patch },
          { hash := "bb", message := "m2", footer := "",
            versions := [{ major := 1, minor := 0, patch := 0 : Version }],
            semver := SemverImpact.patch }] : List Commit) (some "BB")
        = ([{ hash := "aa", message := "m1", footer := "", versions := [],
              semver := SemverImpact.patch }] : List Commit) := by
  refine ⟨by decide, ?_⟩
  rw [(claim4_release_window _ "BB" (by decide)).1]
  decide

/-! ## Claim C7: changelog rendering -/

theorem collapseAdjacentAux_subset (prev : String) (l : List String) :
    ∀ x ∈ collapseAdjacentAux prev l, x ∈ l := by
  induction l generalizing prev with
  | nil => intro x hx; cases hx
  | cons a l ih =>
    intro x hx
    simp only [collapseAdjacentAux] at hx
    by_cases ha : (a == prev) = true
    · rw [if_pos ha] at hx
      exact List.mem_cons_of_mem a (ih a x hx)
    · rw [if_neg ha] at hx
      rw [List.mem_cons] at hx
      rcases hx with hx | hx
      · simp [hx]
      · exact List.mem_cons_of_mem a (ih a x hx)

theorem collapseAdjacent_subset (l : List String) :
    ∀ x ∈ collapseAdjacent l, x ∈ l := by
  cases l with
  | nil => intro x hx; cases hx
  | cons a l =>
    intro x hx
    rw [show collapseAdjacent (a :: l) = a :: collapseAdjacentAux a l from rfl,
      List.mem_cons] at hx
    rcases hx with hx | hx
    · simp [hx]
    · exact List.mem_cons_of_mem a (collapseAdjacentAux_subset a l x hx)

theorem collapseAdjacent_ne_nil (l : List String) (h : l ≠ []) :
    collapseAdjacent l ≠ [] := by
  cases l with
  | nil => cases h rfl
  | cons a l => simp [collapseAdjacent]

theorem jsJoin_last_ne (sep : String) (ps : List String) (hne : ps ≠ [])
    (hall : ∀ q ∈ ps, q.data ≠ [] ∧ q.data.getLast? ≠ some '\n') :
    (jsJoin sep ps).data ≠ [] ∧ (jsJoin sep ps).data.getLast? ≠ some '\n' := by
  induction ps with
  | nil => cases hne rfl
  | cons q ps ih =>
    cases ps with
    | nil => exact hall q (by simp)
    | cons r ps' =>
      have hrest := ih (by simp) (fun x hx => hall x (List.mem_cons_of_mem q hx))
      have hjoin : jsJoin sep (q :: r :: ps') = q ++ sep ++ jsJoin sep (r :: ps') := rfl
      obtain ⟨x, hx⟩ : ∃ x, (jsJoin sep (r :: ps')).data.getLast? = some x := by
        cases hg : (jsJoin sep (r :: ps')).data.getLast? with
        | none =>
          exfalso
          apply hrest.1
          have := List.getLast?_isSome (l := (jsJoin sep (r :: ps')).data)
          by_contra hne2
          rw [← ne_eq] at hne2
          have hs := this.mpr hne2
          rw [hg] at hs
          cases hs
        | some x => exact ⟨x, rfl⟩
      constructor
      · rw [hjoin]
        intro hcontra
        rw [String.data_append, String.data_append, List.append_eq_nil,
          List.append_eq_nil] at hcontra
        exact (hall q (by simp)).1 hcontra.1.1
      · rw [hjoin, String.data_append, String.data_append, List.append_assoc,
          List.getLast?_append, List.getLast?_append, hx]
        simp only [Option.or_some]
        intro hcontra
        apply hrest.2
        rw [hx]
        simpa using hcontra

theorem bullet_last_ne (c : Commit) (hmsg : ∀ ch ∈ c.message.data, ch ≠ '\n') :
    ("- " ++ c.message).data ≠ []
    ∧ ("- " ++ c.message).data.getLast? ≠ some '\n' := by
  have hdata : ("- " ++ c.message).data = ['-', ' '] ++ c.message.data := by
    rw [String.data_append]
  constructor
  · rw [hdata]
    simp
  · rw [hdata, List.getLast?_append]
    cases hg : c.message.data.getLast? with
    | none => simp
    | some x =>
      have hxmem := List.mem_of_mem_getLast? hg
      simp only [Option.or_some]
      intro hcontra
      exact hmsg x hxmem (by simpa using hcontra)

theorem specSection_last_ne (heading : String) (cs : List Commit) (hcs : cs ≠ [])
    (hmsg : ∀ c ∈ cs, ∀ ch ∈ c.message.data, ch ≠ '\n') :
    (specSection heading cs).data ≠ []
    ∧ (specSection heading cs).data.getLast? ≠ some '\n' := by
  have hbullets : ∀ q ∈ collapseAdjacent (cs.map fun c => "- " ++ c.message),
      q.data ≠ [] ∧ q.data.getLast? ≠ some '\n' := by
    intro q hq
    have hq2 := collapseAdjacent_subset _ q hq
    rw [List.mem_map] at hq2
    obtain ⟨c, hc, rfl⟩ := hq2
    exact bullet_last_ne c (hmsg c hc)
  have hne : collapseAdjacent (cs.map fun c => "- " ++ c.message) ≠ [] := by
    apply collapseAdjacent_ne_nil
    simpa using hcs
  have hjoin := jsJoin_last_ne "\n" _ hne hbullets
  have hdata : (specSection heading cs).data
      = (heading ++ "\n\n").data ++ (jsJoin "\n" (collapseAdjacent
          (cs.map fun c => "- " ++ c.message))).data := by
    rw [specSection, ← String.data_append]
  constructor
  · rw [hdata]
    intro hcontra
    rw [List.append_eq_nil] at hcontra
    exact hjoin.1 hcontra.2
  · rw [hdata, List.getLast?_append]
    obtain ⟨x, hx⟩ : ∃ x, (jsJoin "\n" (collapseAdjacent
        (cs.map fun c => "- " ++ c.message))).data.getLast? = some x := by
      cases hg : (jsJoin "\n" (collapseAdjacent
          (cs.map fun c => "- " ++ c.message))).data.getLast? with
      | none =>
        exfalso
        apply hjoin.1
        by_contra hne2
        rw [← ne_eq] at hne2
        have hs := (List.getLast?_isSome).mpr hne2
        rw [hg] at hs
        cases hs
      | some x => exact ⟨x, rfl⟩
    rw [hx]
    simp only [Option.or_some]
    intro hcontra
    apply hjoin.2
    rw [hx]
    simpa using hcontra

theorem string_append_ne_empty (h x : String) (hh : h.data ≠ []) : (h ++ x) ≠ "" := by
  intro hcontra
  apply hh
  have hd := congrArg String.data hcontra
  rw [String.data_append] at hd
  exact (List.append_eq_nil.mp hd).1

theorem jsJoin_cons_ne_empty (sep q : String) (ps : List String) (hq : q.data ≠ []) :
    jsJoin sep (q :: ps) ≠ "" := by
  cases ps with
  | nil =>
    intro hcontra
    exact hq (congrArg String.data hcontra)
  | cons r ps' =>
    have : jsJoin sep (q :: r :: ps') = q ++ sep ++ jsJoin sep (r :: ps') := rfl
    rw [this]
    intro hcontra
    apply hq
    have hd := congrArg String.data hcontra
    rw [String.data_append, String.data_append] at hd
    exact ((List.append_eq_nil.mp (List.append_eq_nil.mp hd).1).1)

theorem append_left_ne_empty (a b : String) (ha : a ≠ "") : (a ++ b) ≠ "" := by
  intro h
  apply ha
  have hd := congrArg String.data h
  rw [String.data_append] at hd
  exact String.ext (List.append_eq_nil.mp hd).1

theorem render_eq_spec (prev nxt : Version) (cs ma mi pa : List Commit) :
    generateChangelogMarkdown ⟨prev, nxt, cs, ma, mi, pa⟩ = specRenderChangelog ma mi pa := by
  have hMl : ("# Major changes (breaking)" ++ "\n\n" : String)
      = "# Major changes (breaking)\n\n" := rfl
  have hFl : ("# Feature updates" ++ "\n\n" : String) = "# Feature updates\n\n" := rfl
  have hOl : ("# Other commits" ++ "\n\n" : String) = "# Other commits\n\n" := rfl
  have hM : ∀ b : List Commit,
      (("# Major changes (breaking)\n\n" ++ toMarkdownList b) != "") = true := by
    intro b
    rw [bne_iff_ne]
    exact string_append_ne_empty _ _ (by decide)
  have hF : ∀ b : List Commit,
      (("# Feature updates\n\n" ++ toMarkdownList b) != "") = true := by
    intro b
    rw [bne_iff_ne]
    exact string_append_ne_empty _ _ (by decide)
  have hO : ∀ b : List Commit,
      (("# Other commits\n\n" ++ toMarkdownList b) != "") = true := by
    intro b
    rw [bne_iff_ne]
    exact string_append_ne_empty _ _ (by decide)
  have hJM : ∀ (b : List Commit) (ps : List String),
      ((jsJoin "\n\n" (("# Major changes (breaking)\n\n" ++ toMarkdownList b) :: ps)) != "")
        = true := by
    intro b ps
    rw [bne_iff_ne]
    refine jsJoin_cons_ne_empty _ _ _ ?_
    rw [String.data_append]
    simp
  have hJF : ∀ (b : List Commit) (ps : List String),
      ((jsJoin "\n\n" (("# Feature updates\n\n" ++ toMarkdownList b) :: ps)) != "")
        = true := by
    intro b ps
    rw [bne_iff_ne]
    refine jsJoin_cons_ne_empty _ _ _ ?_
    rw [String.data_append]
    simp
  have hJO : ∀ (b : List Commit) (ps : List String),
      ((jsJoin "\n\n" (("# Other commits\n\n" ++ toMarkdownList b) :: ps)) != "")
        = true := by
    intro b ps
    rw [bne_iff_ne]
    refine jsJoin_cons_ne_empty _ _ _ ?_
    rw [String.data_append]
    simp
  cases ma <;> cases mi <;> cases pa <;>
    simp [generateChangelogMarkdown, specRenderChangelog, specSection, List.filter_cons,
      hM, hF, hO, hJM, hJF, hJO, hMl, hFl, hOl, jsJoin, toMarkdownList] <;>
    (intro hcontra
     first
     | exact absurd hcontra (string_append_ne_empty _ _ (by decide))
     | exact absurd hcontra
         (append_left_ne_empty _ _ (append_left_ne_empty _ _
           (string_append_ne_empty _ _ (by decide)))))

theorem joined_render_last (secs : List String) (hne : secs ≠ [])
    (hall : ∀ q ∈ secs, q.data ≠ [] ∧ q.data.getLast? ≠ some '\n') :
    (jsJoin "\n\n" secs ++ "\n").data.getLast? = some '\n'
    ∧ (jsJoin "\n\n" secs ++ "\n").data.dropLast.getLast? ≠ some '\n' := by
  have hj := jsJoin_last_ne "\n\n" secs hne hall
  have hdata : (jsJoin "\n\n" secs ++ "\n").data = (jsJoin "\n\n" secs).data ++ ['\n'] :=
    String.data_append _ _
  rw [hdata, List.getLast?_concat, List.dropLast_concat]
  exact ⟨rfl, hj.2⟩

theorem specRender_trailing (ma mi pa : List Commit) (hne : ¬(ma = [] ∧ mi = [] ∧ pa = []))
    (hmsg : ∀ c ∈ ma ++ mi ++ pa, ∀ ch ∈ c.message.data, ch ≠ '\n') :
    (specRenderChangelog ma mi pa).data.getLast? = some '\n'
    ∧ (specRenderChangelog ma mi pa).data.dropLast.getLast? ≠ some '\n' := by
  cases ma <;> cases mi <;> cases pa
  case nil.nil.nil => exact absurd ⟨rfl, rfl, rfl⟩ hne
  all_goals
    simp only [specRenderChangelog, List.isEmpty_cons, List.isEmpty_nil, if_true, if_false,
      Bool.false_eq_true, List.nil_append, List.append_nil, List.cons_append,
      List.singleton_append]
    refine joined_render_last _ (by simp) ?_
    intro q hq
    simp only [List.mem_cons, List.not_mem_nil, or_false] at hq
    rcases hq with rfl | rfl | rfl <;>
      exact specSection_last_ne _ _ (by simp)
        (fun c hc ch hch => hmsg c (by simp only [List.mem_append]; tauto) ch hch)

/-- Claim C7: the changelog output matches the spec's rendering (per
non-empty bucket in order Major, Minor, Patch: a heading then one bullet per
message with consecutive duplicates collapsed, sections separated by a blank
line), is empty when all buckets are empty, otherwise — for the
newline-free messages the parser produces — ends with exactly one trailing
newline; consecutive duplicate messages collapse to one bullet while a
non-consecutive repeat is kept. -/
theorem claim7_changelog (prev nxt : Version) (cs ma mi pa : List Commit) :
    generateChangelogMarkdown ⟨prev, nxt, cs, ma, mi, pa⟩ = specRenderChangelog ma mi pa
    ∧ (ma = [] → mi = [] → pa = [] →
        generateChangelogMarkdown ⟨prev, nxt, cs, ma, mi, pa⟩ = "")
    ∧ (¬(ma = [] ∧ mi = [] ∧ pa = []) →
        (∀ c ∈ ma ++ mi ++ pa, ∀ ch ∈ c.message.data, ch ≠ '\n') →
        (generateChangelogMarkdown ⟨prev, nxt, cs, ma, mi, pa⟩).data.getLast? = some '\n'
        ∧ (generateChangelogMarkdown
            ⟨prev, nxt, cs, ma, mi, pa⟩).data.dropLast.getLast? ≠ some '\n')
    ∧ toMarkdownList
        [{ hash := "h1", message := "m", footer := "", versions := [],
           semver := SemverImpact.major },
         { hash := "h2", message := "m", footer := "", versions := [],
           semver := SemverImpact.major }] = "- m"
    ∧ toMarkdownList
        [{ hash := "h1", message := "m", footer := "", versions := [],
           semver := SemverImpact.major },
         { hash := "h2", message := "x", footer := "", versions := [],
           semver := SemverImpact.major },
         { hash := "h3", message := "m", footer := "", versions := [],
           semver := SemverImpact.major }] = "- m\n- x\n- m" := by
  refine ⟨render_eq_spec prev nxt cs ma mi pa, ?_, ?_, rfl, rfl⟩
  · intro h1 h2 h3
    subst h1; subst h2; subst h3
    rw [render_eq_spec]
    rfl
  · intro hne hmsg
    rw [render_eq_spec]
    exact specRender_trailing ma mi pa hne hmsg

/-- Witness for `claim7_changelog`: one major commit with message "m" renders
as a single section ending in exactly one newline. -/
theorem claim7_changelog_witness :
    ¬((([{ hash := "h1", message := "m", footer := "", versions := [],
           semver := SemverImpact.major }] : List Commit) = [])
      ∧ (([] : List Commit) = []) ∧ (([] : List Commit) = []))
    ∧ (generateChangelogMarkdown
        ⟨{ major := 1, minor := 0, patch := 0 }, { major := 2, minor := 0, patch := 0 }, [],
          [{ hash := "h1", message := "m", footer := "", versions := [],
             semver := SemverImpact.major }], [], []⟩).data.getLast? = some '\n'
    ∧ (generateChangelogMarkdown
        ⟨{ major := 1, minor := 0, patch := 0 }, { major := 2, minor := 0, patch := 0 }, [],
          [{ hash := "h1", message := "m", footer := "", versions := [],
             semver := SemverImpact.major }], [], []⟩).data.dropLast.getLast? ≠ some '\n' := by
  have h := (claim7_changelog { major := 1, minor := 0, patch := 0 }
    { major := 2, minor := 0, patch := 0 } []
    [{ hash := "h1", message := "m", footer := "", versions := [],
       semver := SemverImpact.major }] [] []).2.2.1
    (by intro hcontra; cases hcontra.1) (by decide)
  exact ⟨(by intro hcontra; cases hcontra.1), h.1, h.2⟩

/-! ## Claims C3 and C10: classification of commit impact -/

theorem dropWhile_eq_drop_length_takeWhile {α : Type} (p : α → Bool) (l : List α) :
    l.dropWhile p = l.drop (l.takeWhile p).length := by
  induction l with
  | nil => rfl
  | cons a l ih =>
    cases ha : p a <;> simp [List.takeWhile, List.dropWhile, ha, ih]

theorem takeWhile_middle {α : Type} (p : α → Bool) (l : List α) (x : α) (t : List α)
    (hall : ∀ c ∈ l, p c = true) (hx : p x = false) :
    (l ++ x :: t).takeWhile p = l := by
  induction l with
  | nil => simp [List.takeWhile, hx]
  | cons a l ih =>
    simp only [List.cons_append, List.takeWhile, hall a (by simp)]
    show a :: List.takeWhile p (l ++ x :: t) = a :: l
    rw [ih fun c hc => hall c (by simp [hc])]

theorem matchBangColon_not_bang_not_colon (req : Bool) (c : Char) (s : List Char)
    (hc : c ≠ '!') (hcc : c ≠ ':') : matchBangColon req (c :: s) = false := by
  unfold matchBangColon
  split <;> simp_all

theorem matchBangColon_bang_not_colon (req : Bool) (d : Char) (t : List Char)
    (hd : d ≠ ':') : matchBangColon req ('!' :: d :: t) = false := by
  unfold matchBangColon
  split <;> simp_all

theorem matchBangColon_iff (req : Bool) (s : List Char) :
    matchBangColon req s = true ↔
      ∃ bg rest, BangPart req bg ∧ s = bg ++ ':' :: rest := by
  constructor
  · intro h
    cases s with
    | nil => cases h
    | cons c s' =>
      by_cases hc : c = '!'
      · subst hc
        cases s' with
        | nil => cases h
        | cons d t =>
          by_cases hd : d = ':'
          · subst hd
            exact ⟨['!'], t, Or.inl rfl, rfl⟩
          · rw [matchBangColon_bang_not_colon req d t hd] at h
            cases h
      · by_cases hcc : c = ':'
        · subst hcc
          have hval : matchBangColon req (':' :: s') = !req := rfl
          rw [hval] at h
          refine ⟨[], s', Or.inr ⟨by simpa using h, rfl⟩, rfl⟩
        · rw [matchBangColon_not_bang_not_colon req c s' hc hcc] at h
          cases h
  · rintro ⟨bg, rest, hbang, rfl⟩
    rcases hbang with rfl | ⟨hreq, rfl⟩
    · rfl
    · subst hreq
      rfl

theorem matchScopeBangColon_not_paren (req : Bool) (c : Char) (s : List Char)
    (hc : c ≠ '(') :
    matchScopeBangColon req (c :: s) = matchBangColon req (c :: s) := by
  unfold matchScopeBangColon
  split <;> simp_all

theorem matchScopeBangColon_iff (req : Bool) (s : List Char) :
    matchScopeBangColon req s = true ↔
      ∃ sc bg rest, (sc = [] ∨ ScopePart sc) ∧ BangPart req bg ∧
        s = sc ++ bg ++ ':' :: rest := by
  constructor
  · intro h
    cases s with
    | nil =>
      rw [show matchScopeBangColon req [] = matchBangColon req [] from rfl] at h
      cases h
    | cons c s' =>
      by_cases hc : c = '('
      · subst hc
        have hform : matchScopeBangColon req ('(' :: s')
            = (let inner := s'.takeWhile (fun c => c != ')')
               if inner.isEmpty then false
               else
                 match s'.drop inner.length with
                 | ')' :: rest2 => matchBangColon req rest2
                 | _ => false) := rfl
        rw [hform] at h
        simp only [] at h
        rcases hin : s'.takeWhile (fun c => c != ')') with _ | ⟨i0, it⟩
        · rw [hin] at h
          cases h
        · rw [hin] at h
          simp only [List.isEmpty_cons, Bool.false_eq_true, if_false] at h
          rcases hdr : s'.drop (i0 :: it).length with _ | ⟨d0, dt⟩ <;> rw [hdr] at h
          · cases h
          · by_cases hd0 : d0 = ')'
            · subst hd0
              have h2 : matchBangColon req dt = true := h
              rw [matchBangColon_iff] at h2
              obtain ⟨bg, rest, hbang, rfl⟩ := h2
              refine ⟨'(' :: ((i0 :: it) ++ [')']), bg, rest,
                Or.inr ⟨i0 :: it, by simp, ?_, rfl⟩, hbang, ?_⟩
              · intro x hx
                have := List.mem_takeWhile_imp (hin ▸ hx)
                simpa using this
              · have hs' : s' = (i0 :: it) ++ ')' :: (bg ++ ':' :: rest) := by
                  have h1 := List.takeWhile_append_dropWhile (fun c => c != ')') s'
                  rw [hin, dropWhile_eq_drop_length_takeWhile, hin, hdr] at h1
                  exact h1.symm
                rw [hs']
                simp
            · exfalso
              split at h
              · rename_i heq
                injection heq with h1 _
                exact hd0 h1
              · cases h
      · rw [matchScopeBangColon_not_paren req c s' hc, matchBangColon_iff] at h
        obtain ⟨bg, rest, hbang, heq⟩ := h
        exact ⟨[], bg, rest, Or.inl rfl, hbang, by simpa using heq⟩
  · rintro ⟨sc, bg, rest, hsc, hbang, rfl⟩
    rcases hsc with rfl | ⟨inner, hin, hnp, rfl⟩
    · have hhead : ∃ c u, bg ++ ':' :: rest = c :: u ∧ c ≠ '(' := by
        rcases hbang with rfl | ⟨_, rfl⟩
        · exact ⟨'!', ':' :: rest, rfl, by decide⟩
        · exact ⟨':', rest, rfl, by decide⟩
      obtain ⟨c, u, hcu, hcne⟩ := hhead
      simp only [List.nil_append, hcu]
      rw [matchScopeBangColon_not_paren req c u hcne, ← hcu, matchBangColon_iff]
      exact ⟨bg, rest, hbang, rfl⟩
    · have hs : ('(' :: (inner ++ [')'])) ++ bg ++ ':' :: rest
          = '(' :: (inner ++ ')' :: (bg ++ ':' :: rest)) := by simp
      rw [hs]
      have htw : (inner ++ ')' :: (bg ++ ':' :: rest)).takeWhile (fun c => c != ')')
          = inner := by
        refine takeWhile_middle _ inner ')' _ (fun c hc => ?_) (by decide)
        simpa using hnp c hc
      have hform : matchScopeBangColon req ('(' :: (inner ++ ')' :: (bg ++ ':' :: rest)))
          = (let inr := (inner ++ ')' :: (bg ++ ':' :: rest)).takeWhile (fun c => c != ')')
             if inr.isEmpty then false
             else
               match (inner ++ ')' :: (bg ++ ':' :: rest)).drop inr.length with
               | ')' :: rest2 => matchBangColon req rest2
               | _ => false) := rfl
      rw [hform]
      simp only [htw]
      have hie : inner.isEmpty = false := by
        cases inner with
        | nil => cases hin rfl
        | cons a l => rfl
      rw [hie]
      simp only [Bool.false_eq_true, if_false]
      have hdrop : (inner ++ ')' :: (bg ++ ':' :: rest)).drop inner.length
          = ')' :: (bg ++ ':' :: rest) := List.drop_left inner _
      rw [hdrop]
      show matchBangColon req (bg ++ ':' :: rest) = true
      rw [matchBangColon_iff]
      exact ⟨bg, rest, hbang, rfl⟩

theorem testTypeRegex_iff (req : Bool) (s : List Char) :
    (!(s.takeWhile isLowerAZ).isEmpty
        && matchScopeBangColon req (s.drop (s.takeWhile isLowerAZ).length)) = true ↔
      SubjectMatch TypeTokenLower req s := by
  constructor
  · intro h
    rw [Bool.and_eq_true] at h
    obtain ⟨hne, hm⟩ := h
    rw [matchScopeBangColon_iff] at hm
    obtain ⟨sc, bg, rest, hsc, hbang, hdrop⟩ := hm
    refine ⟨s.takeWhile isLowerAZ, sc, bg, rest, ⟨?_, ?_⟩, hsc, hbang, ?_⟩
    · intro hnil
      rw [hnil] at hne
      cases hne
    · intro c hc
      exact List.mem_takeWhile_imp hc
    · conv_lhs => rw [← List.takeWhile_append_dropWhile isLowerAZ s]
      rw [dropWhile_eq_drop_length_takeWhile isLowerAZ s, hdrop]
      simp [List.append_assoc]
  · rintro ⟨t, sc, bg, rest, ⟨htne, hlow⟩, hsc, hbang, rfl⟩
    have hhead : ∃ x u', sc ++ bg ++ ':' :: rest = x :: u' ∧ isLowerAZ x = false := by
      rcases hsc with rfl | ⟨inner, hin, hnp, rfl⟩
      · rcases hbang with rfl | ⟨_, rfl⟩
        · exact ⟨'!', ':' :: rest, rfl, by decide⟩
        · exact ⟨':', rest, rfl, by decide⟩
      · exact ⟨'(', inner ++ [')'] ++ (bg ++ ':' :: rest), by simp, by decide⟩
    obtain ⟨x, u', hxu, hxf⟩ := hhead
    have hre : t ++ sc ++ bg ++ ':' :: rest = t ++ x :: u' := by
      rw [show t ++ sc ++ bg ++ ':' :: rest = t ++ (sc ++ bg ++ ':' :: rest) by
        simp [List.append_assoc], hxu]
    have htw : (t ++ x :: u').takeWhile isLowerAZ = t :=
      takeWhile_middle _ t x u' hlow hxf
    rw [Bool.and_eq_true, hre, htw]
    constructor
    · cases t with
      | nil => cases htne rfl
      | cons a l => rfl
    · rw [List.drop_left, matchScopeBangColon_iff]
      exact ⟨sc, bg, rest, hsc, hbang, hxu.symm⟩

/-- The claim-side characterization of `BREAKING_CHANGE_REGEX`. -/
theorem testBreakingChangeRegex_iff (s : List Char) :
    testBreakingChangeRegex s = true ↔ SubjectMatch TypeTokenLower true s :=
  testTypeRegex_iff true s

/-- The claim-side characterization of `CONVENTIONAL_COMMIT_REGEX`. -/
theorem testConventionalCommitRegex_iff (s : List Char) :
    testConventionalCommitRegex s = true ↔ SubjectMatch TypeTokenLower false s :=
  testTypeRegex_iff false s

/-- The claim-side characterization of `FEAT_REGEX`. -/
theorem testFeatRegex_iff (s : List Char) :
    testFeatRegex s = true ↔
      SubjectMatch (fun t => t = ['f', 'e', 'a', 't']) false s := by
  constructor
  · intro h
    unfold testFeatRegex at h
    split at h
    · rename_i rest
      rw [matchScopeBangColon_iff] at h
      obtain ⟨sc, bg, rest', hsc, hbang, hre⟩ := h
      exact ⟨['f', 'e', 'a', 't'], sc, bg, rest', rfl, hsc, hbang, by rw [hre]; rfl⟩
    · cases h
  · rintro ⟨t, sc, bg, rest, rfl, hsc, hbang, rfl⟩
    show matchScopeBangColon false (sc ++ bg ++ ':' :: rest) = true
    rw [matchScopeBangColon_iff]
    exact ⟨sc, bg, rest, hsc, hbang, rfl⟩

/-- The claim-side characterization of `String.prototype.includes`. -/
theorem hasSubstring_iff (nd hay : List Char) :
    hasSubstring nd hay = true ↔ ∃ pre post, hay = pre ++ nd ++ post := by
  induction hay with
  | nil =>
    constructor
    · intro h
      have hnd : nd = [] := by
        cases nd with
        | nil => rfl
        | cons a l => cases h
      exact ⟨[], [], by simp [hnd]⟩
    · rintro ⟨pre, post, h⟩
      have h1 := List.append_eq_nil.mp h.symm
      have h2 := List.append_eq_nil.mp h1.1
      show nd.isEmpty = true
      rw [h2.2]
      rfl
  | cons c t ih =>
    show (nd.isPrefixOf (c :: t) || hasSubstring nd t) = true ↔ _
    rw [Bool.or_eq_true, ih]
    constructor
    · rintro (hp | ⟨pre, post, rfl⟩)
      · rw [List.isPrefixOf_iff_prefix] at hp
        obtain ⟨post, hpost⟩ := hp
        exact ⟨[], post, by rw [← hpost]; rfl⟩
      · exact ⟨c :: pre, post, rfl⟩
    · rintro ⟨pre, post, heq⟩
      cases pre with
      | nil =>
        left
        rw [List.isPrefixOf_iff_prefix]
        exact ⟨post, by rw [heq]; rfl⟩
      | cons p0 pt =>
        right
        injection heq with h1 h2
        exact ⟨pt, post, h2⟩

/-- Claim C3: per-commit impact classification — major when the subject
matches `type[(scope)]!:` (bang immediately before the colon, lowercase type
token) or the footer contains the literal "BREAKING CHANGE: "; otherwise
minor when the subject matches `feat[(scope)]!?:`; otherwise patch when the
subject matches the generic conventional form `type[(scope)]!?:`; otherwise
unknown. -/
theorem claim3_semver_classification (message footer : String) :
    (semverImpact message footer = SemverImpact.major ↔
        (SubjectMatch TypeTokenLower true message.data
          ∨ ContainsSub "BREAKING CHANGE: ".data footer.data))
    ∧ (semverImpact message footer = SemverImpact.minor ↔
        (¬(SubjectMatch TypeTokenLower true message.data
            ∨ ContainsSub "BREAKING CHANGE: ".data footer.data)
          ∧ SubjectMatch (fun t => t = ['f', 'e', 'a', 't']) false message.data))
    ∧ (semverImpact message footer = SemverImpact.patch ↔
        (¬(SubjectMatch TypeTokenLower true message.data
            ∨ ContainsSub "BREAKING CHANGE: ".data footer.data)
          ∧ ¬SubjectMatch (fun t => t = ['f', 'e', 'a', 't']) false message.data
          ∧ SubjectMatch TypeTokenLower false message.data))
    ∧ (semverImpact message footer = SemverImpact.unknown ↔
        (¬(SubjectMatch TypeTokenLower true message.data
            ∨ ContainsSub "BREAKING CHANGE: ".data footer.data)
          ∧ ¬SubjectMatch (fun t => t = ['f', 'e', 'a', 't']) false message.data
          ∧ ¬SubjectMatch TypeTokenLower false message.data)) := by
  have hcontains : hasSubstring "BREAKING CHANGE: ".data footer.data = true ↔
      ContainsSub "BREAKING CHANGE: ".data footer.data := hasSubstring_iff _ _
  cases hB : testBreakingChangeRegex message.data <;>
    cases hS : hasSubstring "BREAKING CHANGE: ".data footer.data <;>
    cases hF : testFeatRegex message.data <;>
    cases hC : testConventionalCommitRegex message.data <;>
    simp only [semverImpact, hB, hS, hF, hC, Bool.or_self, Bool.or_true, Bool.true_or,
      Bool.or_false, Bool.false_or, if_true, if_false, Bool.false_eq_true, Bool.true_eq_false,
      ← testBreakingChangeRegex_iff, ← testFeatRegex_iff, ← testConventionalCommitRegex_iff,
      ← hcontains] <;>
    simp [hB, hS, hF, hC]

/-- Claim C10 (implicit): when the text before the first `:`/`(`/`!` of the
subject contains any character that is not a lowercase ASCII letter, none of
the three classification regexes matches, and the impact is major exactly
when the footer contains "BREAKING CHANGE: ", unknown otherwise. -/
theorem claim10_nonlower_type (message footer : String)
    (h : ∃ c ∈ message.data.takeWhile
        (fun c => !(c == ':') && !(c == '(') && !(c == '!')), isLowerAZ c = false) :
    testBreakingChangeRegex message.data = false
    ∧ testFeatRegex message.data = false
    ∧ testConventionalCommitRegex message.data = false
    ∧ semverImpact message footer
        = (if hasSubstring "BREAKING CHANGE: ".data footer.data then SemverImpact.major
           else SemverImpact.unknown) := by
  obtain ⟨c0, hc0mem, hc0low⟩ := h
  have key : ∀ t sc bg rest : List Char, (∀ ch ∈ t, isLowerAZ ch = true) →
      (sc = [] ∨ ScopePart sc) → (bg = [] ∨ bg = ['!']) →
      message.data = t ++ sc ++ bg ++ ':' :: rest → False := by
    intro t sc bg rest hlow hsc hbg heq
    have hheadu : ∃ x u', sc ++ bg ++ ':' :: rest = x :: u'
        ∧ (!(x == ':') && !(x == '(') && !(x == '!')) = false := by
      rcases hsc with rfl | ⟨inner, hin, hnp, rfl⟩
      · rcases hbg with rfl | rfl
        · exact ⟨':', rest, rfl, by decide⟩
        · exact ⟨'!', ':' :: rest, rfl, by decide⟩
      · exact ⟨'(', inner ++ [')'] ++ (bg ++ ':' :: rest), by simp, by decide⟩
    obtain ⟨x, u', hxu, hxf⟩ := hheadu
    have htall : ∀ ch ∈ t, (!(ch == ':') && !(ch == '(') && !(ch == '!')) = true := by
      intro ch hch
      have hl := hlow ch hch
      have hd : ch ≠ ':' ∧ ch ≠ '(' ∧ ch ≠ '!' := by
        refine ⟨?_, ?_, ?_⟩ <;> intro heq2 <;> rw [heq2] at hl <;> exact absurd hl (by decide)
      simp [hd.1, hd.2.1, hd.2.2]
    have hre : t ++ sc ++ bg ++ ':' :: rest = t ++ x :: u' := by
      rw [show t ++ sc ++ bg ++ ':' :: rest = t ++ (sc ++ bg ++ ':' :: rest) by
        simp [List.append_assoc], hxu]
    have htw : message.data.takeWhile
        (fun c => !(c == ':') && !(c == '(') && !(c == '!')) = t := by
      rw [heq, hre]
      exact takeWhile_middle _ t x u' htall hxf
    rw [htw] at hc0mem
    rw [hlow c0 hc0mem] at hc0low
    cases hc0low
  have hB : testBreakingChangeRegex message.data = false := by
    cases hBv : testBreakingChangeRegex message.data
    · rfl
    · exfalso
      rw [testBreakingChangeRegex_iff] at hBv
      obtain ⟨t, sc, bg, rest, ⟨_, hlow⟩, hsc, hbang, heq⟩ := hBv
      rcases hbang with rfl | ⟨hfalse, _⟩
      · exact key t sc ['!'] rest hlow hsc (Or.inr rfl) heq
      · cases hfalse
  have hF : testFeatRegex message.data = false := by
    cases hFv : testFeatRegex message.data
    · rfl
    · exfalso
      rw [testFeatRegex_iff] at hFv
      obtain ⟨t, sc, bg, rest, rfl, hsc, hbang, heq⟩ := hFv
      refine key _ sc bg rest (by decide) hsc ?_ heq
      rcases hbang with rfl | ⟨_, rfl⟩
      · exact Or.inr rfl
      · exact Or.inl rfl
  have hC : testConventionalCommitRegex message.data = false := by
    cases hCv : testConventionalCommitRegex message.data
    · rfl
    · exfalso
      rw [testConventionalCommitRegex_iff] at hCv
      obtain ⟨t, sc, bg, rest, ⟨_, hlow⟩, hsc, hbang, heq⟩ := hCv
      refine key t sc bg rest hlow hsc ?_ heq
      rcases hbang with rfl | ⟨_, rfl⟩
      · exact Or.inr rfl
      · exact Or.inl rfl
  refine ⟨hB, hF, hC, ?_⟩
  cases hS : hasSubstring "BREAKING CHANGE: ".data footer.data <;>
    simp [semverImpact, hB, hF, hC, hS]

/-- Witness for `claim10_nonlower_type` on the subject "Fix: bug": impact is
unknown with an empty footer and major with a footer carrying the breaking
marker. -/
theorem claim10_nonlower_type_witness :
    (∃ c ∈ "Fix: bug".data.takeWhile
        (fun c => !(c == ':') && !(c == '(') && !(c == '!')), isLowerAZ c = false)
    ∧ semverImpact "Fix: bug" "" = SemverImpact.unknown
    ∧ semverImpact "Fix: bug" "see BREAKING CHANGE: stuff" = SemverImpact.major := by
  refine ⟨by decide, ?_, ?_⟩
  · have h := (claim10_nonlower_type "Fix: bug" "" (by decide)).2.2.2
    rw [h]
    decide
  · have h := (claim10_nonlower_type "Fix: bug" "see BREAKING CHANGE: stuff" (by decide)).2.2.2
    rw [h]
    decide

/-! ## Claim C6: semver round trip -/

theorem splitAtFirst_none_inv (sep : Char) (l a : List Char)
    (h : splitAtFirst sep l = (a, none)) : l = a ∧ ∀ c ∈ a, c ≠ sep := by
  induction l generalizing a with
  | nil =>
    injection h with h1 h2
    subst h1
    exact ⟨rfl, by simp⟩
  | cons c rest ih =>
    by_cases hc : c = sep
    · subst hc
      simp [splitAtFirst] at h
    · simp only [splitAtFirst, beq_iff_eq, if_neg hc] at h
      rcases hsp : splitAtFirst sep rest with ⟨a', o⟩
      rw [hsp] at h
      cases o with
      | none =>
        obtain ⟨ha, hrec⟩ := ih a' hsp
        injection h with h1 h2
        subst h1
        constructor
        · rw [ha]
        · intro x hx
          rcases List.mem_cons.mp hx with rfl | hx2
          · exact hc
          · exact hrec x hx2
      | some b => cases h

theorem splitAtFirst_some_inv (sep : Char) (l a b : List Char)
    (h : splitAtFirst sep l = (a, some b)) : l = a ++ sep :: b ∧ ∀ c ∈ a, c ≠ sep := by
  induction l generalizing a with
  | nil => simp [splitAtFirst] at h
  | cons c rest ih =>
    by_cases hc : c = sep
    · subst hc
      simp only [splitAtFirst, beq_self_eq_true, if_true] at h
      injection h with h1 h2
      injection h2 with h2
      subst h1
      subst h2
      simp
    · simp only [splitAtFirst, beq_iff_eq, if_neg hc] at h
      rcases hsp : splitAtFirst sep rest with ⟨a', o⟩
      rw [hsp] at h
      cases o with
      | none => cases (Prod.mk.injEq _ _ _ _ ▸ h).2
      | some b' =>
        injection h with h1 h2
        injection h2 with h2
        subst h1
        subst h2
        obtain ⟨ha, hrec⟩ := ih a' hsp
        constructor
        · rw [ha]
          rfl
        · intro x hx
          rcases List.mem_cons.mp hx with rfl | hx2
          · exact hc
          · exact hrec x hx2

theorem splitOnChar_ne_nil (sep : Char) (l : List Char) : splitOnChar sep l ≠ [] := by
  cases l with
  | nil => simp [splitOnChar]
  | cons c rest =>
    simp only [splitOnChar]
    by_cases hc : c = sep
    · simp [hc]
    · simp only [beq_iff_eq, if_neg hc]
      rcases splitOnChar sep rest with _ | ⟨p, ps⟩ <;> simp

theorem joinSep_splitOnChar (sep : Char) (l : List Char) :
    joinSep sep (splitOnChar sep l) = l := by
  induction l with
  | nil => rfl
  | cons c rest ih =>
    simp only [splitOnChar]
    by_cases hc : c = sep
    · subst hc
      simp only [beq_self_eq_true, if_true]
      rcases hsp : splitOnChar c rest with _ | ⟨p, ps⟩
      · exact absurd hsp (splitOnChar_ne_nil c rest)
      · show c :: joinSep c (p :: ps) = c :: rest
        rw [← hsp, ih]
    · simp only [beq_iff_eq, if_neg hc]
      rcases hsp : splitOnChar sep rest with _ | ⟨p, ps⟩
      · exact absurd hsp (splitOnChar_ne_nil sep rest)
      · rw [hsp] at ih
        cases ps with
        | nil =>
          show c :: p = c :: rest
          have hp : p = rest := ih
          rw [hp]
        | cons q qs =>
          show c :: (p ++ sep :: joinSep sep (q :: qs)) = c :: rest
          have ih2 : p ++ sep :: joinSep sep (q :: qs) = rest := ih
          rw [ih2]

theorem mem_joinSep (sep : Char) (ps : List (List Char)) (x : Char)
    (hx : x ∈ joinSep sep ps) : x = sep ∨ ∃ p ∈ ps, x ∈ p := by
  induction ps with
  | nil => cases hx
  | cons p ps ih =>
    cases ps with
    | nil =>
      right
      exact ⟨p, by simp, hx⟩
    | cons q qs =>
      have hx2 : x ∈ p ++ sep :: joinSep sep (q :: qs) := hx
      rw [List.mem_append, List.mem_cons] at hx2
      rcases hx2 with hp | rfl | hj
      · exact Or.inr ⟨p, by simp, hp⟩
      · exact Or.inl rfl
      · rcases ih hj with h1 | ⟨r, hr, hxr⟩
        · exact Or.inl h1
        · exact Or.inr ⟨r, by simp [hr], hxr⟩

theorem isDigitChar_elim (c : Char) (h : isDigitChar c = true) :
    c = '0' ∨ c = '1' ∨ c = '2' ∨ c = '3' ∨ c = '4'
      ∨ c = '5' ∨ c = '6' ∨ c = '7' ∨ c = '8' ∨ c = '9' := by
  simp [isDigitChar] at h
  tauto

theorem digitVal_lt_10 (c : Char) (h : isDigitChar c = true) : digitVal c < 10 := by
  rcases isDigitChar_elim c h with rfl|rfl|rfl|rfl|rfl|rfl|rfl|rfl|rfl|rfl <;> decide

theorem digitToChar_digitVal (c : Char) (h : isDigitChar c = true) :
    digitToChar (digitVal c) = c := by
  rcases isDigitChar_elim c h with rfl|rfl|rfl|rfl|rfl|rfl|rfl|rfl|rfl|rfl <;> decide

theorem digitVal_pos (c : Char) (h : isDigitChar c = true) (h0 : c ≠ '0') :
    1 ≤ digitVal c := by
  rcases isDigitChar_elim c h with rfl|rfl|rfl|rfl|rfl|rfl|rfl|rfl|rfl|rfl
  · cases h0 rfl
  all_goals decide

theorem digitsToNat_append (l : List Char) (d : Char) :
    digitsToNat (l ++ [d]) = 10 * digitsToNat l + digitVal d := by
  show (l ++ [d]).foldl (fun acc c => 10 * acc + digitVal c) 0 = _
  rw [List.foldl_append]
  rfl

theorem foldl_digits_ge (l : List Char) (acc : Nat) :
    acc ≤ l.foldl (fun a c => 10 * a + digitVal c) acc := by
  induction l generalizing acc with
  | nil => exact Nat.le_refl acc
  | cons c t ih =>
    calc acc ≤ 10 * acc + digitVal c := by omega
    _ ≤ t.foldl (fun a c => 10 * a + digitVal c) (10 * acc + digitVal c) := ih _

theorem digitsToNat_pos (c : Char) (rest : List Char) (hc : isDigitChar c = true)
    (h0 : c ≠ '0') : 1 ≤ digitsToNat (c :: rest) := by
  have h1 : digitsToNat (c :: rest)
      = rest.foldl (fun a c => 10 * a + digitVal c) (digitVal c) := by
    show (c :: rest).foldl (fun a c => 10 * a + digitVal c) 0 = _
    rw [List.foldl_cons]
    norm_num
  rw [h1]
  exact Nat.le_trans (digitVal_pos c hc h0) (foldl_digits_ge rest (digitVal c))

theorem natToDecAux_stable (f1 : Nat) : ∀ (f2 n : Nat), n < f1 → n < f2 →
    natToDecAux f1 n = natToDecAux f2 n := by
  induction f1 with
  | zero => intro f2 n h1; cases h1
  | succ f1 ih =>
    intro f2 n h1 h2
    cases f2 with
    | zero => cases h2
    | succ f2 =>
      by_cases h10 : n < 10
      · simp [natToDecAux, h10]
      · simp only [natToDecAux, h10, if_false]
        have hlt : n / 10 < n := Nat.div_lt_self (by omega) (by omega)
        rw [ih f2 (n / 10) (by omega) (by omega)]

theorem natToDec_lt10 (n : Nat) (h : n < 10) : natToDec n = [digitToChar n] := by
  simp [natToDec, natToDecAux, h]

theorem natToDec_ge10 (n : Nat) (h : 10 ≤ n) :
    natToDec n = natToDec (n / 10) ++ [digitToChar (n % 10)] := by
  have h1 : natToDec n = natToDecAux n (n / 10) ++ [digitToChar (n % 10)] := by
    simp [natToDec, natToDecAux, Nat.not_lt.mpr h]
  rw [h1]
  have hlt : n / 10 < n := Nat.div_lt_self (by omega) (by omega)
  rw [natToDecAux_stable n (n / 10 + 1) (n / 10) hlt (Nat.lt_succ_self _)]
  rfl

theorem natToDec_digits (rest : List Char) : ∀ c : Char,
    (∀ d ∈ rest, isDigitChar d = true) → isDigitChar c = true → c ≠ '0' →
    natToDec (digitsToNat (c :: rest)) = c :: rest := by
  induction rest using List.reverseRecOn with
  | nil =>
    intro c _ hc h0
    have hval : digitsToNat [c] = digitVal c := by
      show 10 * 0 + digitVal c = digitVal c
      omega
    rw [hval, natToDec_lt10 _ (digitVal_lt_10 c hc), digitToChar_digitVal c hc]
  | append_singleton rest d ih =>
    intro c hall hc h0
    have hd : isDigitChar d = true := hall d (by simp)
    have hrest : ∀ x ∈ rest, isDigitChar x = true := fun x hx => hall x (by simp [hx])
    have happ : digitsToNat (c :: (rest ++ [d]))
        = 10 * digitsToNat (c :: rest) + digitVal d := by
      rw [show c :: (rest ++ [d]) = (c :: rest) ++ [d] from rfl, digitsToNat_append]
    have hv : 1 ≤ digitsToNat (c :: rest) := digitsToNat_pos c rest hc h0
    have hdlt : digitVal d < 10 := digitVal_lt_10 d hd
    have hge : 10 ≤ digitsToNat (c :: (rest ++ [d])) := by
      rw [happ]
      omega
    rw [natToDec_ge10 _ hge, happ]
    have hdiv : (10 * digitsToNat (c :: rest) + digitVal d) / 10 = digitsToNat (c :: rest) := by
      rw [Nat.mul_add_div (by omega), Nat.div_eq_of_lt hdlt]
      omega
    have hmod : (10 * digitsToNat (c :: rest) + digitVal d) % 10 = digitVal d := by
      rw [Nat.mul_add_mod, Nat.mod_eq_of_lt hdlt]
    rw [hdiv, hmod, ih c hrest hc h0, digitToChar_digitVal d hd]
    rfl

/-- The decimal rendering inverts `parseInt` on any token matching
`0|[1-9]\d*`. -/
theorem natToDec_digitsToNat (l : List Char) (h : numericIdent l = true) :
    natToDec (digitsToNat l) = l := by
  cases l with
  | nil => cases h
  | cons c rest =>
    by_cases hc0 : c = '0'
    · subst hc0
      have hrest : rest = [] := by
        simp only [numericIdent, beq_self_eq_true, if_true] at h
        exact List.isEmpty_iff.mp h
      subst hrest
      decide
    · simp only [numericIdent, beq_iff_eq, if_neg hc0, Bool.and_eq_true, List.all_eq_true] at h
      exact natToDec_digits rest c (fun d hd => h.2 d hd) h.1 hc0

theorem isJsSpace_false_of_digit (c : Char) (h : isDigitChar c = true) :
    isJsSpace c = false := by
  rcases isDigitChar_elim c h with rfl|rfl|rfl|rfl|rfl|rfl|rfl|rfl|rfl|rfl <;> decide

theorem isAlnumHyphen_of_digit (c : Char) (h : isDigitChar c = true) :
    isAlnumHyphen c = true := by
  simp [isAlnumHyphen, h]

theorem isJsSpace_false_of_alnumHyphen (c : Char) (h : isAlnumHyphen c = true) :
    isJsSpace c = false := by
  simp only [isAlnumHyphen, isAsciiLetter, Bool.or_eq_true, Bool.and_eq_true,
    decide_eq_true_eq, beq_iff_eq] at h
  rcases h with (hd | (⟨h1, h2⟩ | ⟨h1, h2⟩)) | rfl
  · exact isJsSpace_false_of_digit c hd
  · simp only [isJsSpace, Bool.or_eq_false_iff, beq_eq_false_iff_ne]
    refine ⟨⟨⟨⟨⟨?_, ?_⟩, ?_⟩, ?_⟩, ?_⟩, ?_⟩ <;> (rintro rfl; revert h1 h2; decide)
  · simp only [isJsSpace, Bool.or_eq_false_iff, beq_eq_false_iff_ne]
    refine ⟨⟨⟨⟨⟨?_, ?_⟩, ?_⟩, ?_⟩, ?_⟩, ?_⟩ <;> (rintro rfl; revert h1 h2; decide)
  · decide

theorem numericIdent_chars (p : List Char) (h : numericIdent p = true) :
    ∀ c ∈ p, isDigitChar c = true := by
  cases p with
  | nil => cases h
  | cons c rest =>
    by_cases hc0 : c = '0'
    · subst hc0
      simp only [numericIdent, beq_self_eq_true, if_true] at h
      rw [List.isEmpty_iff.mp h]
      intro x hx
      rcases List.mem_cons.mp hx with rfl | hx2
      · decide
      · cases hx2
    · simp only [numericIdent, beq_iff_eq, if_neg hc0, Bool.and_eq_true,
        List.all_eq_true] at h
      intro x hx
      rcases List.mem_cons.mp hx with rfl | hx2
      · exact h.1
      · exact h.2 x hx2

theorem prereleaseIdent_chars (p : List Char) (h : prereleaseIdent p = true) :
    ∀ c ∈ p, isAlnumHyphen c = true := by
  simp only [prereleaseIdent, Bool.or_eq_true, Bool.and_eq_true, List.all_eq_true] at h
  rcases h with hnum | ⟨⟨_, hall⟩, _⟩
  · exact fun c hc => isAlnumHyphen_of_digit c (numericIdent_chars p hnum c hc)
  · exact hall

theorem buildIdent_chars (p : List Char) (h : buildIdent p = true) :
    ∀ c ∈ p, isAlnumHyphen c = true := by
  simp only [buildIdent, Bool.and_eq_true, List.all_eq_true] at h
  exact h.2

theorem dropWhile_eq_self_of_head (p : Char → Bool) (l : List Char)
    (h : ∀ c, l.head? = some c → p c = false) : l.dropWhile p = l := by
  cases l with
  | nil => rfl
  | cons a t => simp [List.dropWhile, h a rfl]

theorem jsTrim_eq_self (l : List Char) (h : ∀ c ∈ l, isJsSpace c = false) :
    jsTrim l = l := by
  unfold jsTrim
  rw [dropWhile_eq_self_of_head _ _
    (fun c hc => h c (List.mem_of_mem_head? hc))]
  rw [dropWhile_eq_self_of_head _ _
    (fun c hc => h c (List.mem_reverse.mp (List.mem_of_mem_head? hc)))]
  exact List.reverse_reverse l

theorem nums_chars (a1 b1 c1 : List Char) (hnA : numericIdent a1 = true)
    (hnB : numericIdent b1 = true) (hnC : numericIdent c1 = true) :
    ∀ ch ∈ a1 ++ '.' :: (b1 ++ '.' :: c1), isJsSpace ch = false := by
  intro ch hch
  rw [List.mem_append, List.mem_cons] at hch
  rcases hch with hA | rfl | hch2
  · exact isJsSpace_false_of_digit ch (numericIdent_chars a1 hnA ch hA)
  · decide
  · rw [List.mem_append, List.mem_cons] at hch2
    rcases hch2 with hB | rfl | hC
    · exact isJsSpace_false_of_digit ch (numericIdent_chars b1 hnB ch hB)
    · decide
    · exact isJsSpace_false_of_digit ch (numericIdent_chars c1 hnC ch hC)

theorem seg_chars (sf : List Char) (identOK : List Char → Bool)
    (hcls : ∀ p, identOK p = true → ∀ c ∈ p, isAlnumHyphen c = true)
    (h : (splitOnChar '.' sf).all identOK = true) :
    ∀ ch ∈ sf, isJsSpace ch = false := by
  intro ch hch
  rw [← joinSep_splitOnChar '.' sf] at hch
  rcases mem_joinSep '.' _ ch hch with rfl | ⟨p, hp, hchp⟩
  · decide
  · rw [List.all_eq_true] at h
    exact isJsSpace_false_of_alnumHyphen ch (hcls p (h p hp) ch hchp)

/-- Claim C6: for every string matched by the semver grammar, rendering the
parsed version reproduces the string exactly when it carries no build
metadata, and reproduces the part before the `+` (the build metadata is
dropped) when it does. -/
theorem claim6_roundtrip (s : String) (a b c : List Char) (suf bld : Option (List Char))
    (h : semverRegexGroups s = some (a, b, c, suf, bld)) :
    (bld = none → versionToSemverString (parseVersion s) = s)
    ∧ (∀ bd, bld = some bd →
        versionToSemverString (parseVersion s)
          = String.mk (s.data.takeWhile (fun ch => ch != '+'))) := by
  have horig := h
  rcases hcb : splitAtFirst '+' s.data with ⟨core, bldo⟩
  rcases hns : splitAtFirst '-' core with ⟨nums, sufo⟩
  simp only [semverRegexGroups, hcb, hns] at h
  split at h
  all_goals try exact Option.noConfusion h
  rename_i a1 b1 c1 hsp
  split at h
  all_goals try exact Option.noConfusion h
  rename_i hcnd
  simp only [Option.some.injEq, Prod.mk.injEq] at h
  obtain ⟨rfl, rfl, rfl, rfl, rfl⟩ := h
  simp only [Bool.and_eq_true] at hcnd
  obtain ⟨⟨⟨⟨hnA, hnB⟩, hnC⟩, hsufok⟩, hbldok⟩ := hcnd
  have hnums : nums = a1 ++ '.' :: (b1 ++ '.' :: c1) := by
    have hj := joinSep_splitOnChar '.' nums
    rw [hsp] at hj
    rw [← hj]
    rfl
  -- the pre-release tail of the core and of the rendered string
  have hsufTail : ∃ st : List Char,
      core = nums ++ st
      ∧ (∀ ch ∈ st, isJsSpace ch = false)
      ∧ (match sufo.map (fun l => String.mk l) with
         | some sf => if sf != "" then '-' :: sf.data else []
         | none => []) = st := by
    cases sufo with
    | none =>
      obtain ⟨hc1, _⟩ := splitAtFirst_none_inv '-' core nums hns
      exact ⟨[], by simp [hc1], by simp, rfl⟩
    | some sf =>
      obtain ⟨hc1, _⟩ := splitAtFirst_some_inv '-' core nums sf hns
      have hsfa : (splitOnChar '.' sf).all prereleaseIdent = true := hsufok
      have hsfne : sf ≠ [] := by
        intro hnil
        subst hnil
        cases hsfa
      have hmkne : (String.mk sf != "") = true := by
        rw [bne_iff_ne]
        intro he
        exact hsfne (congrArg String.data he)
      refine ⟨'-' :: sf, hc1, ?_, ?_⟩
      · intro ch hch
        rcases List.mem_cons.mp hch with rfl | hch2
        · decide
        · exact seg_chars sf prereleaseIdent prereleaseIdent_chars hsfa ch hch2
      · show (if (String.mk sf != "") = true then '-' :: (String.mk sf).data else []) = '-' :: sf
        rw [hmkne]
        simp
  obtain ⟨st, hcoreEq, hstChars, hstRender⟩ := hsufTail
  have hcoreChars : ∀ ch ∈ core, isJsSpace ch = false := by
    intro ch hch
    rw [hcoreEq, List.mem_append] at hch
    rcases hch with hch | hch
    · exact nums_chars a1 b1 c1 hnA hnB hnC ch (hnums ▸ hch)
    · exact hstChars ch hch
  have hsChars : ∀ ch ∈ s.data, isJsSpace ch = false := by
    intro ch hch
    cases bldo with
    | none =>
      obtain ⟨hs1, _⟩ := splitAtFirst_none_inv '+' s.data core hcb
      exact hcoreChars ch (hs1 ▸ hch)
    | some bd =>
      obtain ⟨hs1, _⟩ := splitAtFirst_some_inv '+' s.data core bd hcb
      rw [hs1, List.mem_append, List.mem_cons] at hch
      rcases hch with hch | rfl | hch
      · exact hcoreChars ch hch
      · decide
      · exact seg_chars bd buildIdent buildIdent_chars hbldok ch hch
  have hmk : String.mk s.data = s := rfl
  have hpv : parseVersion s
      = { major := digitsToNat a1, minor := digitsToNat b1, patch := digitsToNat c1,
          suffix := sufo.map (fun l => String.mk l) } := by
    unfold parseVersion
    rw [jsTrim_eq_self s.data hsChars, hmk, horig]
  have hdata : (versionToSemverString (parseVersion s)).data = core := by
    rw [hpv]
    show natToDec (digitsToNat a1) ++ '.' :: natToDec (digitsToNat b1)
        ++ '.' :: natToDec (digitsToNat c1)
        ++ (match sufo.map (fun l => String.mk l) with
            | some sf => if sf != "" then '-' :: sf.data else []
            | none => []) = core
    rw [natToDec_digitsToNat a1 hnA, natToDec_digitsToNat b1 hnB,
      natToDec_digitsToNat c1 hnC, hstRender, hcoreEq, hnums]
    simp [List.append_assoc]
  constructor
  · rintro rfl
    obtain ⟨hs1, _⟩ := splitAtFirst_none_inv '+' s.data core hcb
    apply String.ext
    rw [hdata, ← hs1]
  · rintro bd rfl
    obtain ⟨hs1, hnoplus⟩ := splitAtFirst_some_inv '+' s.data core bd hcb
    apply String.ext
    show (versionToSemverString (parseVersion s)).data
        = s.data.takeWhile (fun ch => ch != '+')
    rw [hdata, hs1]
    rw [takeWhile_middle _ core '+' bd (fun ch hch => by simp [hnoplus ch hch]) (by decide)]

/-- Witness for `claim6_roundtrip` at the string "1.2.3-beta+45": the build
metadata is dropped, so the round trip renders "1.2.3-beta". -/
theorem claim6_roundtrip_witness :
    semverRegexGroups "1.2.3-beta+45"
      = some ("1".data, "2".data, "3".data, some "beta".data, some "45".data)
    ∧ versionToSemverString (parseVersion "1.2.3-beta+45")
      = String.mk ("1.2.3-beta+45".data.takeWhile (fun ch => ch != '+'))
    ∧ String.mk ("1.2.3-beta+45".data.takeWhile (fun ch => ch != '+')) = "1.2.3-beta" := by
  refine ⟨rfl, ?_, by decide⟩
  exact (claim6_roundtrip "1.2.3-beta+45" "1".data "2".data "3".data
    (some "beta".data) (some "45".data) rfl).2 "45".data rfl

/-! ## Claim C9: error surface of the core -/

/-- Claim C9, counterexample: the two conditions the claim says are surfaced
as named error kinds (`MalformedHistory`, `AmbiguousReleaseWindow`) produce
ordinary values instead.  Commit-history text with no well-formed commit
record parses to the empty list, and an empty pending window with no
boundary/tag information yields a normal patch-bump release; no error kinds
exist anywhere in the embedded core. -/
theorem claim9_counterexample :
    getAllCommits "this is not a git log" = []
    ∧ getCommitsSinceLastRelease (getAllCommits "this is not a git log") none = []
    ∧ generateRelease { major := 1, minor := 2, patch := 3 }
        (getCommitsSinceLastRelease (getAllCommits "this is not a git log") none)
      = { prev := { major := 1, minor := 2, patch := 3 },
          next := { major := 1, minor := 2, patch := 4 },
          commits := [], majors := [], minors := [], patches := [] } :=
  ⟨rfl, rfl, rfl⟩

/-- Claim C9 as amended: the core surfaces no failure conditions at all — it
is total and fails open.  History text with no well-formed commit header
yields an empty record list; the empty window with no boundary/tag
information flows through `generateRelease` as an ordinary computation
(a patch bump of the previous version when no version-override rule
applies). -/
theorem claim9_amended (raw : String) (prev : Version)
    (hmal : findHeaders raw.data 0 true = []) :
    getAllCommits raw = []
    ∧ getCommitsSinceLastRelease (getAllCommits raw) none = []
    ∧ (generateRelease prev (getCommitsSinceLastRelease (getAllCommits raw) none)).commits = []
    ∧ (generateRelease prev (getCommitsSinceLastRelease (getAllCommits raw) none)).prev = prev
    ∧ ((decide (1 ≤ prev.major)
          && isFirstBefore prev { major := prev.major, minor := 0, patch := 0 }) = false →
        isFirstBefore prev { major := 0, minor := 1, patch := 0 } = false →
        (generateRelease prev (getCommitsSinceLastRelease (getAllCommits raw) none)).next
          = { major := prev.major, minor := prev.minor, patch := prev.patch + 1 }) := by
  have h0 : getAllCommits raw = [] := by
    unfold getAllCommits
    rw [hmal]
    rfl
  rw [h0]
  refine ⟨rfl, rfl, rfl, rfl, ?_⟩
  intro h1 h2
  have hw : getCommitsSinceLastRelease [] none = [] := rfl
  simp [generateRelease, h1, h2, hw]

/-- Witness for `claim9_amended` on a log text with no commit header and
previous version 1.2.3. -/
theorem claim9_amended_witness :
    findHeaders "this is not a git log".data 0 true = []
    ∧ (decide (1 ≤ (1 : Nat))
        && isFirstBefore { major := 1, minor := 2, patch := 3 }
            { major := 1, minor := 0, patch := 0 }) = false
    ∧ (generateRelease { major := 1, minor := 2, patch := 3 }
        (getCommitsSinceLastRelease (getAllCommits "this is not a git log") none)).next
      = { major := 1, minor := 2, patch := 4 } := by
  refine ⟨rfl, by decide, ?_⟩
  exact (claim9_amended "this is not a git log" { major := 1, minor := 2, patch := 3 }
    rfl).2.2.2.2 (by decide) (by decide)

end PubTime
